import Mathlib

set_option maxHeartbeats 1000000

/-! Verification of the pdf-ops core against its natural-language
specification.  The development shallowly embeds the four core modules of
the repository — spec.rs (the page-range language), scan.rs (the
filter-aware filesystem scanner), merge.rs (the assembler) and split.rs
(the splitter) — and proves the specification's claims about them.
Object identifiers are modelled as `Nat` (the generation number, always 0
on this code path, is dropped); filesystem paths as their component lists;
the lopdf collaborators that the repository calls (`Document::load`,
`get_pages`) are abstract parameters, while the lopdf operations whose
behaviour the claims depend on (`renumber_objects_with`,
`Dictionary::set`, `BTreeMap` insertion) are modelled concretely.
String-level operations (splitting, trimming, integer parsing) are
transcribed onto character lists so that every definition evaluates by
kernel reduction. -/

namespace PdfOps

/-- Decidable equality of `Except` results, used to evaluate the embedded
fallible operations on concrete inputs. -/
instance instDecEqExcept {α β : Type} [DecidableEq α] [DecidableEq β] :
    DecidableEq (Except α β) := fun a b =>
  match a, b with
  | .error x, .error y =>
    if h : x = y then .isTrue (congrArg Except.error h)
    else .isFalse (fun c => h (Except.error.inj c))
  | .ok x, .ok y =>
    if h : x = y then .isTrue (congrArg Except.ok h)
    else .isFalse (fun c => h (Except.ok.inj c))
  | .error _, .ok _ => .isFalse (fun c => Except.noConfusion c)
  | .ok _, .error _ => .isFalse (fun c => Except.noConfusion c)

/-! ## spec.rs : the page-range language -/

/-- spec.rs `PageRange`: a 1-based inclusive page range; `end = none` is
open-ended.  The source field `end` is a Lean keyword, hence the quoted
name. -/
structure PageRange where
  start : Nat
  «end» : Option Nat
deriving DecidableEq, Repr

/-- spec.rs `SpecError`: `InvalidNumber` wraps the `ParseIntError` of the
offending token, `InvalidSegment` carries the inverted segment. -/
inductive SpecError where
  | invalidNumber (tok : String)
  | invalidSegment (seg : String)
deriving DecidableEq, Repr

/-- Rust `str::split(sep)` on a character list: the (possibly empty)
pieces between occurrences of the separator. -/
def splitChar (sep : Char) : List Char → List (List Char)
  | [] => [[]]
  | c :: cs =>
    if c = sep then [] :: splitChar sep cs
    else
      match splitChar sep cs with
      | [] => [[c]]
      | t :: ts => (c :: t) :: ts

/-- Rust `str::trim` on a character list: strip leading and trailing
whitespace. -/
def trimChars (cs : List Char) : List Char :=
  ((cs.dropWhile Char.isWhitespace).reverse.dropWhile Char.isWhitespace).reverse

/-- Rust `str::parse::<usize>` on a character list: an optional leading
plus sign, then one or more ASCII digits, with the value below `2 ^ 64`
(an overflowing numeral is a `ParseIntError` as well). -/
def parseUsize (cs : List Char) : Option Nat :=
  let t := match cs with
    | c :: rest => if c = '+' then rest else cs
    | [] => []
  if t = [] then none
  else if t.all Char.isDigit then
    let n := t.foldl (fun a c => a * 10 + (c.toNat - 48)) 0
    if n < 2 ^ 64 then some n else none
  else none

/-- The non-empty trimmed comma-separated segments of a spec string
(line 20 of spec.rs: split on commas, trim, drop empties). -/
def segments (s : String) : List (List Char) :=
  ((splitChar ',' s.data).map trimChars).filter (fun t => t ≠ [])

/-- Rust `str::split_once('-')`: the parts before and after the first
hyphen, or `none` when the string has no hyphen. -/
def splitOnceDash : List Char → Option (List Char × List Char)
  | [] => none
  | c :: cs =>
    if c = '-' then some ([], cs)
    else (splitOnceDash cs).map (fun p => (c :: p.1, p.2))

/-- The loop body of spec.rs `parse_spec` on one trimmed non-empty
segment: either `A-B` with optionally empty sides, or a bare page
number. -/
def parseSegment (raw : List Char) : Except SpecError PageRange :=
  match splitOnceDash raw with
  | some (a, b) =>
    match (if a = [] then some 1 else parseUsize a) with
    | none => .error (.invalidNumber (String.mk a))
    | some start =>
      if b = [] then .ok ⟨start, none⟩
      else
        match parseUsize b with
        | none => .error (.invalidNumber (String.mk b))
        | some e =>
          if e < start then .error (.invalidSegment (String.mk raw))
          else .ok ⟨start, some e⟩
  | none =>
    match parseUsize raw with
    | some p => .ok ⟨p, some p⟩
    | none => .error (.invalidNumber (String.mk raw))

/-- The segment loop of spec.rs `parse_spec`: results are pushed in
segment order, the first failing segment aborts with its error. -/
def parseSegs : List (List Char) → Except SpecError (List PageRange)
  | [] => .ok []
  | seg :: rest =>
    match parseSegment seg with
    | .error e => .error e
    | .ok r =>
      match parseSegs rest with
      | .error e => .error e
      | .ok rs => .ok (r :: rs)

/-- spec.rs `parse_spec`: parse a page spec such as "1-3,5,10-". -/
def parse_spec (s : String) : Except SpecError (List PageRange) :=
  parseSegs (segments s)

/-- The invalid-number condition of the specification on one segment: a
token of the segment fails numeric parsing (for a dashed segment a
non-empty side, for a bare segment the segment itself). -/
def segNonNumeric (seg : List Char) : Bool :=
  match splitOnceDash seg with
  | some (a, b) =>
    (decide (a ≠ []) && (parseUsize a).isNone)
      || (decide (b ≠ []) && (parseUsize b).isNone)
  | none => (parseUsize seg).isNone

/-- The invalid-segment condition of the specification on one segment: a
closed range whose parsed end is below its parsed start (an empty left
side parses as 1). -/
def segInverted (seg : List Char) : Bool :=
  match splitOnceDash seg with
  | some (a, b) =>
    match (if a = [] then some 1 else parseUsize a), parseUsize b with
    | some s, some e => decide (e < s)
    | _, _ => false
  | none => false

/-- The clamped upper page of a range against a page total (line 42 of
spec.rs): a present bound is capped at the total, an open end resolves to
the total. -/
def clampEnd (r : PageRange) (total : Nat) : Nat :=
  match r.«end» with
  | some e => min e total
  | none => total

/-- Ordered insertion into a strictly ascending list of page indexes: the
model of `BTreeSet::insert` (an element already present is not added
again). -/
def setInsert (x : Nat) : List Nat → List Nat
  | [] => [x]
  | y :: ys =>
    if x < y then x :: y :: ys
    else if x = y then y :: ys
    else y :: setInsert x ys

/-- The inner page loop of spec.rs `expand_to_indexes`: insert `p - 1`
for every `p` in the inclusive range `lo..=hi`. -/
def insertPages (lo hi : Nat) (s : List Nat) : List Nat :=
  (List.range' lo (hi + 1 - lo)).foldl (fun acc p => setInsert (p - 1) acc) s

/-- The range loop of spec.rs `expand_to_indexes`, accumulating into the
`BTreeSet` (modelled as a strictly ascending list): the loop breaks when
`total = 0`, clamps `start` up to 1 and `end` down to the total, skips
inverted clamped ranges, and inserts each selected page minus one. -/
def expandLoop (total : Nat) : List PageRange → List Nat → List Nat
  | [], s => s
  | r :: rs, s =>
    if total = 0 then s
    else if clampEnd r total < max r.start 1 then expandLoop total rs s
    else expandLoop total rs (insertPages (max r.start 1) (clampEnd r total) s)

/-- spec.rs `expand_to_indexes`: expand ranges to the deduplicated,
ascending list of selected zero-based page indexes (`BTreeSet` iteration
order is ascending, so collecting the set is the identity here). -/
def expand_to_indexes (ranges : List PageRange) (total : Nat) : List Nat :=
  expandLoop total ranges []

/-! ## The lopdf object model used by merge.rs and split.rs -/

/-- lopdf `Object`, restricted to the variants this code path builds or
inspects: dictionaries, arrays, references, names, integers and null.
Object identifiers are `Nat` (generation numbers, always 0 here, are
dropped). -/
inductive PdfObject where
  | null
  | int (n : Int)
  | name (s : String)
  | ref (id : Nat)
  | arr (xs : List PdfObject)
  | dict (d : List (String × PdfObject))

/-- Success of lopdf `Object::as_dict_mut`: the object is a dictionary. -/
def isDict : PdfObject → Bool
  | .dict _ => true
  | _ => false

/-- Association-list lookup with first-match semantics: the shared model
of `BTreeMap::get` and `Dictionary::get`. -/
def aGet {κ ν : Type} [DecidableEq κ] (m : List (κ × ν)) (k : κ) : Option ν :=
  (m.find? (fun kv => kv.1 = k)).map (fun kv => kv.2)

/-- Key-presence test of an association list. -/
def aHas {κ ν : Type} [DecidableEq κ] (m : List (κ × ν)) (k : κ) : Bool :=
  m.any (fun kv => kv.1 = k)

/-- In-place overwrite of the value at key `k`, keys untouched: the model
of `get_mut` followed by a write. -/
def aUpdate {κ ν : Type} [DecidableEq κ] (m : List (κ × ν)) (k : κ) (v : ν) :
    List (κ × ν) :=
  m.map (fun kv => if kv.1 = k then (k, v) else kv)

/-- Insert-or-replace: the shared model of `BTreeMap::insert` and
`Dictionary::set` (an existing key keeps its position, a new binding is
appended — linked-hash-map semantics; extensionally also `BTreeMap`). -/
def aSet {κ ν : Type} [DecidableEq κ] (m : List (κ × ν)) (k : κ) (v : ν) :
    List (κ × ν) :=
  if aHas m k then aUpdate m k v else m ++ [(k, v)]

/-- lopdf `Dictionary::set`. -/
def dictSet (d : List (String × PdfObject)) (k : String) (v : PdfObject) :
    List (String × PdfObject) :=
  aSet d k v

/-- Dictionary lookup (`Dictionary::get`). -/
def dictGet (d : List (String × PdfObject)) (k : String) : Option PdfObject :=
  aGet d k

/-- The document object table (`BTreeMap<ObjectId, Object>`), as an
association list with unique keys. -/
abbrev ObjMap := List (Nat × PdfObject)

/-- `BTreeMap::get`. -/
def mapGet (m : ObjMap) (k : Nat) : Option PdfObject :=
  aGet m k

/-- `BTreeMap::insert`: replace the value at an existing key, else add
the binding. -/
def mapInsert (m : ObjMap) (k : Nat) (v : PdfObject) : ObjMap :=
  aSet m k v

/-- In-place mutation of the object stored at key `k` (`get_mut` followed
by a write); keys are untouched. -/
def mapUpdate (m : ObjMap) (k : Nat) (v : PdfObject) : ObjMap :=
  aUpdate m k v

/-- `BTreeMap::extend`: insert every binding of `n` into `m` (a clashing
key keeps `n`'s value). -/
def mapExtend (m n : ObjMap) : ObjMap :=
  n.foldl (fun acc kv => mapInsert acc kv.1 kv.2) m

/-- lopdf `Document`, reduced to what merge.rs and split.rs manipulate:
the running maximum object id, the object table and the trailer
dictionary. -/
structure Doc where
  maxId : Nat
  objects : ObjMap
  trailer : List (String × PdfObject)

/-- `Document::with_version("1.5")`: a fresh document with `max_id = 0`,
no objects and an empty trailer. -/
def freshDoc : Doc := { maxId := 0, objects := [], trailer := [] }

/-- Rewriting of a replacement table over object ids: a listed id moves
to its partner, any other id stays. -/
def replFn (repl : List (Nat × Nat)) (i : Nat) : Nat :=
  ((repl.find? (fun kv => kv.1 = i)).map (fun kv => kv.2)).getD i

mutual

/-- Reference rewriting inside one object (`traverse_objects` of lopdf's
renumbering): apply `f` to every `Reference`, recursing through arrays
and dictionaries. -/
def rewriteObj (f : Nat → Nat) : PdfObject → PdfObject
  | .null => .null
  | .int n => .int n
  | .name s => .name s
  | .ref i => .ref (f i)
  | .arr xs => .arr (rewriteArr f xs)
  | .dict d => .dict (rewritePairs f d)

/-- Reference rewriting over an array of objects. -/
def rewriteArr (f : Nat → Nat) : List PdfObject → List PdfObject
  | [] => []
  | x :: xs => rewriteObj f x :: rewriteArr f xs

/-- Reference rewriting over a dictionary's bindings. -/
def rewritePairs (f : Nat → Nat) :
    List (String × PdfObject) → List (String × PdfObject)
  | [] => []
  | kv :: xs => (kv.1, rewriteObj f kv.2) :: rewritePairs f xs

end

/-- lopdf `Document::renumber_objects_with(starting_id)`: objects are
re-keyed consecutively from `starting_id` in ascending old-id order,
references are rewritten through the same replacement table, and
`max_id` becomes the last assigned id. -/
def renumberWith (startId : Nat) (d : Doc) : Doc :=
  let sorted := List.insertionSort (fun x y => x.1 ≤ y.1) d.objects
  let repl := (sorted.map Prod.fst).zip (List.range' startId sorted.length)
  let f := replFn repl
  { maxId := startId + d.objects.length - 1
    objects := sorted.enum.map (fun p => (startId + p.1, rewriteObj f p.2.2))
    trailer := d.trailer }

/-! ## A small filesystem state, for the effects the claims mention -/

/-- The filesystem as the sets of existing directories and files, each a
path given by its component list. -/
structure FS where
  dirs : List (List String)
  files : List (List String)
deriving DecidableEq, Repr

/-- `Path::exists`: the path names an existing directory or file. -/
def pathExists (fs : FS) (p : List String) : Bool :=
  fs.dirs.contains p || fs.files.contains p

/-- Record one directory as existing (no change when already there). -/
def addDir (fs : FS) (d : List String) : FS :=
  if fs.dirs.contains d then fs else { fs with dirs := fs.dirs ++ [d] }

/-- The proper prefixes of a path down from its first component,
innermost last: what `create_dir_all` must bring into existence. -/
def ancestors (p : List String) : List (List String) :=
  (List.range p.length).map (fun i => p.take (i + 1))

/-- `std::fs::create_dir_all`: create the directory and every missing
ancestor. -/
def createDirAll (fs : FS) (p : List String) : FS :=
  (ancestors p).foldl addDir fs

/-- `Document::save`: the output file exists afterwards (its content is
outside this model). -/
def writeFile (fs : FS) (p : List String) : FS :=
  if fs.files.contains p then fs else { fs with files := fs.files ++ [p] }

/-- `Path::parent`, on component lists: drop the final component; the
empty path has no parent. -/
def parentDir (p : List String) : Option (List String) :=
  match p with
  | [] => none
  | _ => some p.dropLast

/-! ## merge.rs : the assembler -/

/-- The lopdf entry points the assembler and splitter call but whose
internals (file parsing, page-tree traversal) are outside the embedded
object model: `Document::load` and `get_pages`.  `getPages` returns the
page object ids in page order (the values of lopdf's page-number map). -/
structure PdfLib where
  load : List String → Except String Doc
  getPages : Doc → List Nat

/-- The `Parent`-rewriting loop of merge.rs lines 88-101 (and split.rs
lines 59-72): each kept page id is looked up in the object table; a
missing id or a non-dictionary object aborts with an error, otherwise the
page dictionary's `Parent` is set to a reference to `pagesId`. -/
def setParents (pagesId : Nat) : List Nat → ObjMap → Except String ObjMap
  | [], objs => .ok objs
  | pid :: rest, objs =>
    match mapGet objs pid with
    | none => .error "页面对象不存在"
    | some o =>
      match o with
      | .dict d =>
        setParents pagesId rest
          (mapUpdate objs pid (.dict (dictSet d "Parent" (.ref pagesId))))
      | _ => .error "页面对象不是字典"

/-- merge.rs lines 87-117 (and split.rs lines 58-88): allocate the new
page-tree node at `maxId + 1`, reparent every kept page to it, give it
the ordered `Kids` references and their `Count`, allocate the catalog at
`maxId + 2`, and replace the trailer with a fresh dictionary referencing
only the new catalog. -/
def buildTree (maxId : Nat) (objects : ObjMap) (pageIds : List Nat) :
    Except String Doc :=
  let pagesId := maxId + 1
  match setParents pagesId pageIds objects with
  | .error e => .error e
  | .ok objs =>
    let kids := pageIds.map PdfObject.ref
    let pagesDict :=
      dictSet (dictSet (dictSet [] "Type" (.name "Pages"))
          "Kids" (.arr kids))
        "Count" (.int pageIds.length)
    let objs2 := mapInsert objs pagesId (.dict pagesDict)
    let catalogId := pagesId + 1
    let catalogDict :=
      dictSet (dictSet [] "Type" (.name "Catalog")) "Pages" (.ref pagesId)
    let objs3 := mapInsert objs2 catalogId (.dict catalogDict)
    .ok { maxId := catalogId
          objects := objs3
          trailer := dictSet [] "Root" (.ref catalogId) }

/-- A page object correctly parented to the page-tree node `pagesId`: it
is stored as a dictionary whose `Parent` entry references `pagesId`. -/
def hasParentRef (pagesId : Nat) (objs : ObjMap) (k : Nat) : Prop :=
  ∃ pd, mapGet objs k = some (.dict pd)
    ∧ dictGet pd "Parent" = some (.ref pagesId)

/-- The failure condition of the claim: the kept page id is absent from
the object table, or its object is not a dictionary. -/
def badPage (objs : ObjMap) (k : Nat) : Prop :=
  mapGet objs k = none ∨ ∃ o, mapGet objs k = some o ∧ isDict o = false

/-- `Document::compress`: stream compression only; it does not change the
object graph structure modelled here. -/
def compress (d : Doc) : Doc := d

/-- The source loop of merge.rs lines 53-85: load each file, optionally
parse and expand the page spec against this file's own page count,
renumber the file's objects past the running maximum id, keep the pages
selected by position, and fold the file's entire object table into the
accumulating output. -/
def mergeLoop (lib : PdfLib) (pagesSpec : Option String) :
    List (List String) → Nat → ObjMap → List Nat →
    Except String (Nat × ObjMap × List Nat)
  | [], maxId, objs, pids => .ok (maxId, objs, pids)
  | path :: rest, maxId, objs, pids =>
    match lib.load path with
    | .error e => .error e
    | .ok pdf =>
      let total := (lib.getPages pdf).length
      match (match pagesSpec with
             | some str =>
               (parse_spec str).map (fun rs => some (expand_to_indexes rs total))
             | none => Except.ok none) with
      | .error _ => .error "解析页码范围失败"
      | .ok indices =>
        let offset := maxId + 1
        let pdf2 := renumberWith offset pdf
        let pages := lib.getPages pdf2
        let current := (pages.enum.filter (fun q =>
            match indices with
            | some idxs => idxs.contains q.1
            | none => true)).map Prod.snd
        mergeLoop lib pagesSpec rest pdf2.maxId (mapExtend objs pdf2.objects)
          (pids ++ current)

/-- The assembly tail of merge.rs `merge_selected_pages` (lines 87-120):
build the page tree, catalog and trailer over the accumulated objects and
save to the output path; an assembly error leaves the filesystem
untouched (no output file is written). -/
def assembleAndSave (fs : FS) (output : List String) (maxId : Nat)
    (objs : ObjMap) (pids : List Nat) : FS × Except String Unit :=
  match buildTree maxId objs pids with
  | .error e => (fs, .error e)
  | .ok _ => (writeFile fs output, .ok ())

/-- merge.rs `merge_selected_pages`: the overwrite check first, then the
source loop, then the page-tree assembly, compression and the save.
Progress-sink calls are presentation-only and omitted; the returned
state is the filesystem after the call. -/
def merge_selected_pages (lib : PdfLib) (fs : FS) (files : List (List String))
    (output : List String) (pagesSpec : Option String) (force : Bool) :
    FS × Except String Unit :=
  if pathExists fs output && !force then (fs, .error "输出文件已存在")
  else
    match mergeLoop lib pagesSpec files 0 [] [] with
    | .error e => (fs, .error e)
    | .ok (maxId, objs, pids) => assembleAndSave fs output maxId objs pids

/-- merge.rs `run_with_files`: delegate directly to the assembler. -/
def run_with_files (lib : PdfLib) (fs : FS) (files : List (List String))
    (output : List String) (pagesSpec : Option String) (force : Bool) :
    FS × Except String Unit :=
  merge_selected_pages lib fs files output pagesSpec force

/-! ## scan.rs : the scanner -/

/-- scan.rs `ScanConfig`, with paths as component lists. -/
structure ScanConfig where
  input_dir : List String
  includes : List String
  excludes : List String
  extra_exclude_paths : List (List String)
  max_depth : Option Nat
  follow_links : Bool

/-- The globset collaborator: compiling a pattern yields its matcher on a
(relative) path, or fails for a malformed pattern. -/
structure GlobLib where
  compile : String → Option (List String → Bool)

/-- The pattern loop of scan.rs `build_globset`: the first malformed
pattern fails the build. -/
def buildGlobs (g : GlobLib) : List String → Except String (List (List String → Bool))
  | [] => .ok []
  | pat :: rest =>
    match g.compile pat with
    | none => .error "无效的 GLOB"
    | some m =>
      match buildGlobs g rest with
      | .error e => .error e
      | .ok ms => .ok (m :: ms)

/-- scan.rs `build_globset`: an empty pattern list builds the empty set
outright, otherwise every pattern must compile. -/
def build_globset (g : GlobLib) (patterns : List String) :
    Except String (List (List String → Bool)) :=
  if patterns = [] then .ok [] else buildGlobs g patterns

/-- One directory entry as `WalkDir` yields it. -/
structure Entry where
  path : List String
  isFile : Bool

/-- ASCII lower-casing of one character. -/
def asciiLower (c : Char) : Char :=
  if 'A' ≤ c ∧ c ≤ 'Z' then Char.ofNat (c.toNat + 32) else c

/-- Rust `eq_ignore_ascii_case`. -/
def eqIgnoreAsciiCase (a b : List Char) : Bool :=
  a.map asciiLower = b.map asciiLower

/-- Rust `Path::extension` on component lists: the part of the file name
after its last dot, none when there is no dot or the only dot leads the
name. -/
def pathExt (p : List String) : Option (List Char) :=
  match p.getLast? with
  | none => none
  | some n =>
    let parts := splitChar '.' n.data
    if parts.length ≤ 1 then none
    else if parts.dropLast = [[]] then none
    else some (parts.getLast?.getD [])

/-- The path relative to the scan root (`strip_prefix` with the path
itself as fallback). -/
def relPath (root p : List String) : List String :=
  if p.take root.length = root then p.drop root.length else p

/-- Strict codepoint order on characters (byte order of UTF-8 strings,
which Rust's `OsStr` comparison uses, coincides with codepoint order). -/
def charLtB (a b : Char) : Bool := decide (a < b)

/-- Generic strict lexicographic order on lists over a strict Boolean
order on elements: a proper prefix is smaller. -/
def lexLtB (lt : α → α → Bool) : List α → List α → Bool
  | [], [] => false
  | [], _ :: _ => true
  | _ :: _, [] => false
  | a :: as, b :: bs =>
    if lt a b then true else if lt b a then false else lexLtB lt as bs

/-- Byte order on strings (Rust `str`/`OsStr` comparison). -/
def strLtB (a b : String) : Bool := lexLtB charLtB a.data b.data

/-- Rust `PathBuf` order: lexicographic comparison of the component
lists, each component compared by bytes (`std::path::Components`). -/
def pathLtB : List String → List String → Bool := lexLtB strLtB

/-- The non-strict `PathBuf` order used by `Vec::sort`. -/
def pathLeB (p q : List String) : Bool := !(pathLtB q p)

/-- The full path string of a component list, as the specification's
"sorted by full path string" reads it. -/
def pathStr (p : List String) : String := String.intercalate "/" p

/-- The filter chain of scan.rs `collect_pdfs_cfg` lines 70-78 (also the
per-entry tests of `scan_stream` lines 166-173): a file, with extension
case-insensitively `pdf`, not exactly one of the extra excluded paths,
whose root-relative path passes the include set (empty set matches all)
and misses the exclude set (empty set excludes nothing). -/
def entryKeep (inc exc : List (List String → Bool)) (cfg : ScanConfig)
    (e : Entry) : Bool :=
  e.isFile
  && (match pathExt e.path with
      | some ext => eqIgnoreAsciiCase ext ['p', 'd', 'f']
      | none => false)
  && !(cfg.extra_exclude_paths.any (fun p => e.path = p))
  && (let rel := relPath cfg.input_dir e.path
      let includeOk := if inc.isEmpty then true else inc.any (fun m => m rel)
      let excludeHit := if exc.isEmpty then false else exc.any (fun m => m rel)
      includeOk && !excludeHit)

/-- The specification's matching condition for one scanned entry,
written from the claim's words: a file whose extension case-insensitively
equals pdf, not exactly one of the extra excluded paths, whose
root-relative path passes the include set (an empty include set matches
everything) and misses the exclude set (an empty exclude set excludes
nothing; exclusion wins over inclusion). -/
def specMatches (g : GlobLib) (cfg : ScanConfig) (ent : Entry) : Prop :=
  ent.isFile = true
  ∧ (∃ ext, pathExt ent.path = some ext
      ∧ eqIgnoreAsciiCase ext ['p', 'd', 'f'] = true)
  ∧ ent.path ∉ cfg.extra_exclude_paths
  ∧ (cfg.includes = []
      ∨ ∃ pat ∈ cfg.includes, ∃ m, g.compile pat = some m
          ∧ m (relPath cfg.input_dir ent.path) = true)
  ∧ (∀ pat ∈ cfg.excludes, ∀ m, g.compile pat = some m →
      m (relPath cfg.input_dir ent.path) = false)

/-- scan.rs `collect_pdfs_cfg`: build both glob sets (failing up front on
a malformed pattern), drop unreadable entries (`filter_map(Result::ok)`),
filter, and sort the resulting paths with `Vec::sort`: `PathBuf` order,
which is the lexicographic order on component lists with byte order on
each component (`pathLeB`). -/
def collect_pdfs_cfg (g : GlobLib) (entries : List (Except String Entry))
    (cfg : ScanConfig) : Except String (List (List String)) :=
  match build_globset g cfg.includes with
  | .error e => .error e
  | .ok inc =>
    match build_globset g cfg.excludes with
    | .error e => .error e
    | .ok exc =>
      .ok (List.insertionSort (fun a b => pathLeB a b = true)
        (((entries.filterMap (fun r => r.toOption)).filter
          (entryKeep inc exc cfg)).map Entry.path))

/-- scan.rs `ScanEvent`. -/
inductive ScanEvent where
  | found (p : List String)
  | error (msg : String)
  | done
deriving DecidableEq, Repr

/-- The entry loop of the scan.rs `scan_stream` worker (lines 162-183),
as the sequence of events it sends: the cancel flag is polled once per
entry and stops further emissions; a readable entry that passes the
filters emits `found`; an unreadable entry emits a non-fatal `error` and
the walk continues. -/
def workerLoop (inc exc : List (List String → Bool)) (cfg : ScanConfig)
    (cancel : Nat → Bool) : Nat → List (Except String Entry) → List ScanEvent
  | _, [] => []
  | i, ent :: rest =>
    if cancel i then []
    else
      match ent with
      | .ok e =>
        (if entryKeep inc exc cfg e then [.found e.path] else [])
          ++ workerLoop inc exc cfg cancel (i + 1) rest
      | .error msg => .error msg :: workerLoop inc exc cfg cancel (i + 1) rest

/-- scan.rs `scan_stream`, as the full event sequence the worker thread
sends over its channel: a glob-set build failure emits an `error` and then
`done`; otherwise the walk runs (under the cancel flag) and `done` is sent
after it. -/
def scan_stream_events (g : GlobLib) (cfg : ScanConfig)
    (entries : List (Except String Entry)) (cancel : Nat → Bool) :
    List ScanEvent :=
  match build_globset g cfg.includes with
  | .error e => [.error e, .done]
  | .ok inc =>
    match build_globset g cfg.excludes with
    | .error e => [.error e, .done]
    | .ok exc => workerLoop inc exc cfg cancel 0 entries ++ [.done]

/-- The scan configuration merge.rs `run` builds (lines 25-32): the
caller's filters, the output path as the one extra excluded path,
unbounded depth, no symlink following. -/
def runCfg (input_dir : List String) (includes excludes : List String)
    (output : List String) : ScanConfig :=
  { input_dir := input_dir
    includes := includes
    excludes := excludes
    extra_exclude_paths := [output]
    max_depth := none
    follow_links := false }

/-- merge.rs `run`: create the output's parent directories, scan the
input directory (with the output path excluded), fail when no PDF was
found, then assemble. -/
def run (lib : PdfLib) (g : GlobLib) (fs : FS)
    (entries : List (Except String Entry)) (input_dir : List String)
    (output : List String) (pagesSpec : Option String)
    (includes excludes : List String) (force : Bool) : FS × Except String Unit :=
  let fs1 := match parentDir output with
    | some par => createDirAll fs par
    | none => fs
  match collect_pdfs_cfg g entries (runCfg input_dir includes excludes output) with
  | .error e => (fs1, .error e)
  | .ok pdfFiles =>
    if pdfFiles = [] then (fs1, .error "未在目录中找到 PDF")
    else merge_selected_pages lib fs1 pdfFiles output pagesSpec force

/-! ## split.rs : the splitter -/

/-- split.rs lines 41-44: the fresh, independent copy of the source
loaded for one group, renumbered with offset `out_doc.max_id + 1` where
`out_doc` is the just-created fresh document — hence starting id 1. -/
def partCopy (src : Doc) : Doc :=
  renumberWith (freshDoc.maxId + 1) src

/-- split.rs `fill_pattern`: substitute the base name, clamped bounds and
1-based group index into the caller's file-name pattern. -/
def fill_pattern (pattern base : String) (a b index : Nat) : String :=
  ((((pattern.replace "{base}" base).replace "{start}" (toString a)).replace
      "{end}" (toString b)).replace "{index}" (toString index))

/-- Rust `Path::file_stem` with the source's `unwrap_or("output")`: the
file name before its extension. -/
def fileStem (p : List String) : String :=
  match p.getLast? with
  | none => "output"
  | some n =>
    let parts := splitChar '.' n.data
    if parts.length ≤ 1 then n
    else if parts.dropLast = [[]] then n
    else String.mk (String.intercalate "." (parts.dropLast.map String.mk)).data

/-- One candidate name of split.rs `ensure_unique_path`: the stem, an
underscore and the counter, then the extension when there is one. -/
def candName (stem ext : String) (i : Nat) : String :=
  stem ++ "_" ++ toString i ++ (if ext = "" then "" else "." ++ ext)

/-- The counter loop of split.rs `ensure_unique_path`, bounded by the
source's 10000-iteration cap: the first non-existing candidate wins, and
when the cap is hit the last candidate is used anyway. -/
def uniqueLoop (fs : FS) (parent : List String) (stem ext : String) :
    Nat → Nat → List String
  | 0, i => parent ++ [candName stem ext i]
  | fuel + 1, i =>
    let cand := parent ++ [candName stem ext i]
    if pathExists fs cand then uniqueLoop fs parent stem ext fuel (i + 1)
    else cand

/-- split.rs `ensure_unique_path`. -/
def ensure_unique_path (fs : FS) (p : List String) : List String :=
  if pathExists fs p then
    let parent := p.dropLast
    let stem := fileStem p
    let ext := match pathExt p with
      | some cs => String.mk cs
      | none => ""
    uniqueLoop fs parent stem ext 10000 1
  else p

/-- The save tail of one split group (split.rs lines 90-96): place the
patterned name under the output directory, uniquify it when it exists and
overwrite is not forced, create its parent directories, and save. -/
def splitSaveStep (fs : FS) (outDir : List String) (outName : String)
    (force : Bool) : FS :=
  let outPath := outDir ++ [outName]
  let outPath2 :=
    if pathExists fs outPath && !force then ensure_unique_path fs outPath
    else outPath
  let fs2 := match parentDir outPath2 with
    | some par => createDirAll fs par
    | none => fs
  writeFile fs2 outPath2

/-- The group loop of split.rs `run` (lines 32-98): clamp the group's
bounds (an open end resolves to the total, the end is capped at the
total, the start is raised to 1); a group whose clamped end falls below
its clamped start is skipped with no output and no error; otherwise a
fresh copy of the source is loaded, renumbered from 1, its selected pages
are kept, the page tree is rebuilt over the full folded object table, and
the result is saved under the patterned (possibly uniquified) name.  Any
error aborts the remaining run. -/
def splitLoop (lib : PdfLib) (input : List String) (outDir : List String)
    (pattern base : String) (force : Bool) (total : Nat) :
    FS → Nat → List PageRange → Except String FS
  | fs, _, [] => .ok fs
  | fs, idx, g :: rest =>
    if min (g.«end».getD total) total < max g.start 1 then
      splitLoop lib input outDir pattern base force total fs (idx + 1) rest
    else
      match lib.load input with
      | .error err => .error err
      | .ok part =>
        match buildTree (partCopy part).maxId (mapExtend [] (partCopy part).objects)
            (((lib.getPages (partCopy part)).enum.filter (fun q =>
              max g.start 1 ≤ q.1 + 1
                && q.1 + 1 ≤ min (g.«end».getD total) total)).map Prod.snd) with
        | .error err => .error err
        | .ok _ =>
          splitLoop lib input outDir pattern base force total
            (splitSaveStep fs outDir
              (fill_pattern pattern base (max g.start 1)
                (min (g.«end».getD total) total) (idx + 1)) force)
            (idx + 1) rest

/-- split.rs `run`: create the output directory, load the source, bail on
an empty document, determine the groups (one per page, or the parsed
range spec, selecting neither being an error), then run the group
loop. -/
def splitRun (lib : PdfLib) (fs : FS) (input : List String)
    (outDir : List String) (each : Bool) (rangesSpec : Option String)
    (pattern : String) (force : Bool) : Except String FS :=
  let fs1 := createDirAll fs outDir
  let base := fileStem input
  match lib.load input with
  | .error e => .error e
  | .ok pdf =>
    let total := (lib.getPages pdf).length
    if total = 0 then .error "输入 PDF 没有可用页面"
    else
      match (if each then
               Except.ok ((List.range' 1 total).map (fun p => PageRange.mk p (some p)))
             else
               match rangesSpec with
               | some s =>
                 match parse_spec s with
                 | .ok rs => Except.ok rs
                 | .error _ => Except.error "解析页码范围失败"
               | none => Except.error "请使用 each 或 ranges 指定分割方式") with
      | .error e => .error e
      | .ok groups => splitLoop lib input outDir pattern base force total fs1 0 groups

/-- A trivial lopdf collaborator, used to evaluate the embedding on
concrete inputs: loading fails and no document has pages. -/
def trivLib : PdfLib :=
  { load := fun _ => .error "io", getPages := fun _ => [] }

/-- A trivial glob collaborator: every pattern compiles to a match-all
matcher. -/
def trivGlob : GlobLib := { compile := fun _ => some (fun _ => true) }

/-! ## Lemmas about the page-set model -/

theorem mem_setInsert (x a : Nat) (l : List Nat) :
    a ∈ setInsert x l ↔ a = x ∨ a ∈ l := by
  induction l with
  | nil => simp [setInsert]
  | cons y ys ih =>
    simp only [setInsert]
    split_ifs with h1 h2
    · simp [List.mem_cons]
    · subst h2
      simp [List.mem_cons]
    · simp [List.mem_cons, ih]
      tauto

theorem sorted_setInsert (x : Nat) (l : List Nat)
    (h : List.Sorted (· < ·) l) : List.Sorted (· < ·) (setInsert x l) := by
  induction l with
  | nil => simp [setInsert]
  | cons y ys ih =>
    rw [List.sorted_cons] at h
    obtain ⟨hy, hys⟩ := h
    simp only [setInsert]
    split_ifs with h1 h2
    · rw [List.sorted_cons]
      refine ⟨?_, by rw [List.sorted_cons]; exact ⟨hy, hys⟩⟩
      intro b hb
      rcases List.mem_cons.mp hb with rfl | hb
      · exact h1
      · exact lt_trans h1 (hy b hb)
    · rw [List.sorted_cons]
      exact ⟨hy, hys⟩
    · rw [List.sorted_cons]
      refine ⟨?_, ih hys⟩
      intro b hb
      rcases (mem_setInsert x b ys).mp hb with rfl | hb
      · omega
      · exact hy b hb

theorem mem_foldl_setInsert (a : Nat) (ps : List Nat) :
    ∀ s : List Nat,
      a ∈ ps.foldl (fun acc p => setInsert (p - 1) acc) s ↔
        (∃ p ∈ ps, p - 1 = a) ∨ a ∈ s := by
  induction ps with
  | nil => intro s; simp
  | cons p ps ih =>
    intro s
    simp only [List.foldl_cons]
    rw [ih, mem_setInsert]
    simp only [List.mem_cons]
    constructor
    · rintro (⟨q, hq, rfl⟩ | rfl | hs)
      · exact Or.inl ⟨q, Or.inr hq, rfl⟩
      · exact Or.inl ⟨p, Or.inl rfl, rfl⟩
      · exact Or.inr hs
    · rintro (⟨q, rfl | hq, rfl⟩ | hs)
      · exact Or.inr (Or.inl rfl)
      · exact Or.inl ⟨q, hq, rfl⟩
      · exact Or.inr (Or.inr hs)

theorem sorted_foldl_setInsert (ps : List Nat) :
    ∀ s : List Nat, List.Sorted (· < ·) s →
      List.Sorted (· < ·) (ps.foldl (fun acc p => setInsert (p - 1) acc) s) := by
  induction ps with
  | nil => intro s hs; simpa using hs
  | cons p ps ih =>
    intro s hs
    exact ih _ (sorted_setInsert _ _ hs)

theorem mem_insertPages (a lo hi : Nat) (hlo : 1 ≤ lo) (s : List Nat) :
    a ∈ insertPages lo hi s ↔ (lo ≤ a + 1 ∧ a + 1 ≤ hi) ∨ a ∈ s := by
  rw [insertPages, mem_foldl_setInsert]
  constructor
  · rintro (⟨p, hp, rfl⟩ | hs)
    · rw [List.mem_range'_1] at hp
      left
      omega
    · exact Or.inr hs
  · rintro (⟨h1, h2⟩ | hs)
    · refine Or.inl ⟨a + 1, ?_, rfl⟩
      rw [List.mem_range'_1]
      omega
    · exact Or.inr hs

theorem sorted_insertPages (lo hi : Nat) (s : List Nat)
    (hs : List.Sorted (· < ·) s) : List.Sorted (· < ·) (insertPages lo hi s) :=
  sorted_foldl_setInsert _ _ hs

theorem clampEnd_eq (r : PageRange) (total : Nat) :
    clampEnd r total = min (r.«end».getD total) total := by
  cases h : r.«end» <;> simp [clampEnd, h]

theorem clampEnd_zero (r : PageRange) : clampEnd r 0 = 0 := by
  cases h : r.«end» <;> simp [clampEnd, h]

theorem mem_expandLoop (total a : Nat) :
    ∀ (rs : List PageRange) (s : List Nat),
      a ∈ expandLoop total rs s ↔
        (∃ r ∈ rs, max r.start 1 ≤ a + 1 ∧ a + 1 ≤ clampEnd r total) ∨ a ∈ s := by
  intro rs
  induction rs with
  | nil => intro s; simp [expandLoop]
  | cons r rs ih =>
    intro s
    simp only [expandLoop]
    split_ifs with h0 h1
    · subst h0
      constructor
      · exact fun h => Or.inr h
      · rintro (⟨r1, _, _, h2⟩ | h)
        · rw [clampEnd_zero] at h2
          omega
        · exact h
    · rw [ih]
      simp only [List.mem_cons]
      constructor
      · rintro (⟨r1, hr1, hb⟩ | hs)
        · exact Or.inl ⟨r1, Or.inr hr1, hb⟩
        · exact Or.inr hs
      · rintro (⟨r1, rfl | hr1, hb⟩ | hs)
        · omega
        · exact Or.inl ⟨r1, hr1, hb⟩
        · exact Or.inr hs
    · rw [ih, mem_insertPages a _ _ (le_max_right _ _)]
      simp only [List.mem_cons]
      constructor
      · rintro (⟨r1, hr1, hb⟩ | hb | hs)
        · exact Or.inl ⟨r1, Or.inr hr1, hb⟩
        · exact Or.inl ⟨r, Or.inl rfl, hb⟩
        · exact Or.inr hs
      · rintro (⟨r1, rfl | hr1, hb⟩ | hs)
        · exact Or.inr (Or.inl hb)
        · exact Or.inl ⟨r1, hr1, hb⟩
        · exact Or.inr (Or.inr hs)

theorem sorted_expandLoop (total : Nat) :
    ∀ (rs : List PageRange) (s : List Nat), List.Sorted (· < ·) s →
      List.Sorted (· < ·) (expandLoop total rs s) := by
  intro rs
  induction rs with
  | nil => intro s hs; simpa using hs
  | cons r rs ih =>
    intro s hs
    simp only [expandLoop]
    split_ifs with h0 h1
    · exact hs
    · exact ih s hs
    · exact ih _ (sorted_insertPages _ _ _ hs)

theorem expandLoop_zero (rs : List PageRange) (s : List Nat) :
    expandLoop 0 rs s = s := by
  cases rs <;> simp [expandLoop]

/-! ## Claim C5 : expand_to_indexes -/

/-- C5: for every range list and page total, `expand_to_indexes` is
sorted ascending and duplicate-free; an index is selected exactly when
some range covers its 1-based page after clamping the start up to 1 and
the end down to `min (end or total) total` (which makes inverted clamped
ranges select nothing); a zero page total yields the empty list; and the
specification's concrete example holds. -/
theorem expand_to_indexes_correct (ranges : List PageRange) (total : Nat) :
    List.Sorted (· < ·) (expand_to_indexes ranges total)
    ∧ (expand_to_indexes ranges total).Nodup
    ∧ (∀ i, i ∈ expand_to_indexes ranges total ↔
        ∃ r ∈ ranges, max r.start 1 ≤ i + 1
          ∧ i + 1 ≤ min (r.«end».getD total) total)
    ∧ expand_to_indexes ranges 0 = []
    ∧ expand_to_indexes [⟨2, some 4⟩, ⟨4, some 6⟩] 5 = [1, 2, 3, 4] := by
  have hs : List.Sorted (· < ·) (expand_to_indexes ranges total) :=
    sorted_expandLoop total ranges [] (by simp)
  refine ⟨hs, hs.nodup, ?_, expandLoop_zero ranges [], by decide⟩
  intro i
  rw [expand_to_indexes, mem_expandLoop]
  simp only [List.not_mem_nil, or_false]
  constructor
  · rintro ⟨r, hr, h1, h2⟩
    exact ⟨r, hr, h1, by rwa [clampEnd_eq] at h2⟩
  · rintro ⟨r, hr, h1, h2⟩
    exact ⟨r, hr, h1, by rwa [clampEnd_eq]⟩

/-! ## Claim C3 : the parser's range invariant -/

/-- C3 counterexample: `parse_spec "0"` succeeds and yields a range whose
start is 0, refuting the claimed `start ≥ 1` invariant. -/
theorem parse_spec_start_zero :
    parse_spec "0" = .ok [⟨0, some 0⟩]
      ∧ ¬ (∀ r ∈ [(⟨0, some 0⟩ : PageRange)], 1 ≤ r.start) := by
  constructor
  · decide
  · decide

theorem parseSegment_end_ge_start (seg : List Char) (r : PageRange)
    (h : parseSegment seg = .ok r) :
    ∀ e, r.«end» = some e → r.start ≤ e := by
  unfold parseSegment at h
  cases hd : splitOnceDash seg with
  | none =>
    simp only [hd] at h
    cases hp : parseUsize seg with
    | none => simp only [hp] at h; cases h
    | some p =>
      simp only [hp] at h
      cases h
      intro e he
      cases he
      exact le_refl _
  | some ab =>
    obtain ⟨a, b⟩ := ab
    simp only [hd] at h
    cases hpa : (if a = [] then some 1 else parseUsize a) with
    | none => simp only [hpa] at h; cases h
    | some start =>
      simp only [hpa] at h
      by_cases hb : b = []
      · rw [if_pos hb] at h
        cases h
        intro e he
        cases he
      · rw [if_neg hb] at h
        cases hpb : parseUsize b with
        | none => simp only [hpb] at h; cases h
        | some e2 =>
          simp only [hpb] at h
          by_cases hlt : e2 < start
          · rw [if_pos hlt] at h; cases h
          · rw [if_neg hlt] at h
            cases h
            intro e he
            cases he
            exact Nat.le_of_not_lt hlt

theorem parseSegs_end_ge_start (segs : List (List Char)) (l : List PageRange)
    (h : parseSegs segs = .ok l) :
    ∀ r ∈ l, ∀ e, r.«end» = some e → r.start ≤ e := by
  induction segs generalizing l with
  | nil =>
    simp only [parseSegs] at h
    cases h
    simp
  | cons seg rest ih =>
    simp only [parseSegs] at h
    cases hs1 : parseSegment seg with
    | error e => rw [hs1] at h; cases h
    | ok r0 =>
      rw [hs1] at h
      cases hs2 : parseSegs rest with
      | error e => rw [hs2] at h; cases h
      | ok rs =>
        rw [hs2] at h
        cases h
        intro r hr
        rcases List.mem_cons.mp hr with rfl | hr
        · exact parseSegment_end_ge_start seg r hs1
        · exact ih rs hs2 r hr

/-- C3 amended: every range a successful `parse_spec` returns satisfies
the data-model invariant on its bounds — a present end is at least the
start.  (The claimed `start ≥ 1` part fails: a bare or left-hand 0 is
accepted, and only `expand_to_indexes` later clamps it.) -/
theorem parse_spec_ranges_end_ge_start (s : String) (l : List PageRange)
    (h : parse_spec s = .ok l) :
    ∀ r ∈ l, ∀ e, r.«end» = some e → r.start ≤ e :=
  parseSegs_end_ge_start (segments s) l h

/-- C3 amended, applied at the concrete spec "1-3". -/
theorem parse_spec_ranges_end_ge_start_witness :
    (PageRange.mk 1 (some 3)).start ≤ 3 :=
  parse_spec_ranges_end_ge_start "1-3" [⟨1, some 3⟩] (by decide)
    ⟨1, some 3⟩ (by simp) 3 rfl

/-! ## Claim C6 : the parser's error conditions -/

theorem parseSegment_isOk_iff (seg : List Char) :
    (parseSegment seg).isOk = false ↔
      (segNonNumeric seg || segInverted seg) = true := by
  unfold parseSegment segNonNumeric segInverted
  cases hd : splitOnceDash seg with
  | none =>
    simp only [hd]
    cases hp : parseUsize seg with
    | none => simp [Except.isOk, Except.toBool]
    | some p => simp [Except.isOk, Except.toBool]
  | some ab =>
    obtain ⟨a, b⟩ := ab
    simp only [hd]
    by_cases ha : a = []
    · subst ha
      simp only [if_pos rfl]
      by_cases hb : b = []
      · subst hb
        simp [Except.isOk, Except.toBool, parseUsize]
      · cases hpb : parseUsize b with
        | none => simp [Except.isOk, Except.toBool, hb]
        | some e =>
          by_cases he : e < 1
          · simp [Except.isOk, Except.toBool, hb, he]
          · simp [Except.isOk, Except.toBool, hb, he]
    · simp only [if_neg ha]
      cases hpa : parseUsize a with
      | none => simp [Except.isOk, Except.toBool, ha]
      | some s =>
        by_cases hb : b = []
        · subst hb
          simp [Except.isOk, Except.toBool, ha, parseUsize]
        · cases hpb : parseUsize b with
          | none => simp [Except.isOk, Except.toBool, ha, hb]
          | some e =>
            by_cases he : e < s
            · simp [Except.isOk, Except.toBool, ha, hb, he]
            · simp [Except.isOk, Except.toBool, ha, hb, he]

theorem parseUsize_nil : parseUsize [] = none := rfl

theorem parseSegment_error_kind (seg : List Char) (e : SpecError)
    (h : parseSegment seg = .error e) :
    ((∃ tok, e = .invalidNumber tok) ∧ segNonNumeric seg = true)
      ∨ (e = .invalidSegment (String.mk seg) ∧ segInverted seg = true) := by
  unfold parseSegment at h
  cases hd : splitOnceDash seg with
  | none =>
    simp only [hd] at h
    cases hp : parseUsize seg with
    | none =>
      simp only [hp] at h
      injection h with h
      refine Or.inl ⟨⟨_, h.symm⟩, ?_⟩
      simp [segNonNumeric, hd, hp]
    | some p => simp only [hp] at h; cases h
  | some ab =>
    obtain ⟨a, b⟩ := ab
    simp only [hd] at h
    cases hpa : (if a = [] then some 1 else parseUsize a) with
    | none =>
      simp only [hpa] at h
      injection h with h
      refine Or.inl ⟨⟨_, h.symm⟩, ?_⟩
      have ha : ¬ a = [] := by
        intro hc
        rw [if_pos hc] at hpa
        cases hpa
      rw [if_neg ha] at hpa
      simp [segNonNumeric, hd, ha, hpa]
    | some start =>
      simp only [hpa] at h
      by_cases hb : b = []
      · rw [if_pos hb] at h; cases h
      · rw [if_neg hb] at h
        cases hpb : parseUsize b with
        | none =>
          simp only [hpb] at h
          injection h with h
          refine Or.inl ⟨⟨_, h.symm⟩, ?_⟩
          simp [segNonNumeric, hd, hb, hpb]
        | some e2 =>
          simp only [hpb] at h
          by_cases he : e2 < start
          · rw [if_pos he] at h
            injection h with h
            refine Or.inr ⟨h.symm, ?_⟩
            simp [segInverted, hd, hpa, hpb, he]
          · rw [if_neg he] at h; cases h

theorem parseSegs_isOk_iff (segs : List (List Char)) :
    (parseSegs segs).isOk = false ↔
      ∃ seg ∈ segs, (parseSegment seg).isOk = false := by
  induction segs with
  | nil => simp [parseSegs, Except.isOk, Except.toBool]
  | cons seg rest ih =>
    simp only [parseSegs]
    cases h1 : parseSegment seg with
    | error e => simp [Except.isOk, Except.toBool, h1]
    | ok r =>
      cases h2 : parseSegs rest with
      | error e =>
        rw [h2] at ih
        simp only [Except.isOk, Except.toBool] at ih ⊢
        constructor
        · intro _
          obtain ⟨s2, hs2, hb2⟩ := ih.mp trivial
          exact ⟨s2, List.mem_cons_of_mem _ hs2, hb2⟩
        · intro _
          trivial
      | ok rs =>
        rw [h2] at ih
        simp only [Except.isOk, Except.toBool] at ih ⊢
        simp [h1, ih]

theorem parseSegs_error_mem (segs : List (List Char)) (e : SpecError)
    (h : parseSegs segs = .error e) :
    ∃ seg ∈ segs, parseSegment seg = .error e := by
  induction segs generalizing e with
  | nil => simp only [parseSegs] at h; cases h
  | cons seg rest ih =>
    simp only [parseSegs] at h
    cases h1 : parseSegment seg with
    | error e2 =>
      rw [h1] at h
      injection h with h
      exact ⟨seg, by simp, by rw [h1, h]⟩
    | ok r =>
      rw [h1] at h
      cases h2 : parseSegs rest with
      | error e2 =>
        rw [h2] at h
        injection h with h
        obtain ⟨s2, hs2, hp⟩ := ih (e := e2) h2
        exact ⟨s2, by simp [hs2], by rw [hp, h]⟩
      | ok rs => rw [h2] at h; cases h

theorem parseSegs_ok_eq (segs : List (List Char)) (l : List PageRange)
    (h : parseSegs segs = .ok l) :
    l = segs.filterMap (fun seg => (parseSegment seg).toOption) := by
  induction segs generalizing l with
  | nil =>
    simp only [parseSegs] at h
    cases h
    simp
  | cons seg rest ih =>
    simp only [parseSegs] at h
    cases h1 : parseSegment seg with
    | error e => rw [h1] at h; cases h
    | ok r =>
      rw [h1] at h
      cases h2 : parseSegs rest with
      | error e => rw [h2] at h; cases h
      | ok rs =>
        rw [h2] at h
        cases h
        simp [List.filterMap_cons, h1, Except.toOption, ih rs h2]

/-- C6: `parse_spec` fails exactly when some non-empty trimmed
comma-separated segment has a token failing numeric parsing or is a
closed range with end below start; the error kind matches the offending
condition; on success the output mirrors the segment order; and the
specification's concrete example holds. -/
theorem parse_spec_error_characterization (s : String) :
    ((parse_spec s).isOk = false ↔
      ∃ seg ∈ segments s, (segNonNumeric seg || segInverted seg) = true)
    ∧ (∀ e, parse_spec s = .error e →
        ∃ seg ∈ segments s,
          ((∃ tok, e = .invalidNumber tok) ∧ segNonNumeric seg = true)
            ∨ (e = .invalidSegment (String.mk seg) ∧ segInverted seg = true))
    ∧ (∀ l, parse_spec s = .ok l →
        l = (segments s).filterMap (fun seg => (parseSegment seg).toOption))
    ∧ parse_spec "1-3,5,10-" = .ok [⟨1, some 3⟩, ⟨5, some 5⟩, ⟨10, none⟩] := by
  refine ⟨?_, ?_, fun l h => parseSegs_ok_eq _ l h, by decide⟩
  · rw [parse_spec, parseSegs_isOk_iff]
    constructor
    · rintro ⟨seg, hseg, hbad⟩
      exact ⟨seg, hseg, (parseSegment_isOk_iff seg).mp hbad⟩
    · rintro ⟨seg, hseg, hbad⟩
      exact ⟨seg, hseg, (parseSegment_isOk_iff seg).mpr hbad⟩
  · intro e he
    obtain ⟨seg, hseg, hp⟩ := parseSegs_error_mem _ e he
    exact ⟨seg, hseg, parseSegment_error_kind seg e hp⟩


/-! ## Lemmas about association-list maps -/

theorem aGet_cons {κ ν : Type} [DecidableEq κ] (x : κ) (w : ν)
    (m : List (κ × ν)) (k : κ) :
    aGet ((x, w) :: m) k = if x = k then some w else aGet m k := by
  by_cases h : x = k <;> simp [aGet, List.find?_cons, h]

theorem aGet_append {κ ν : Type} [DecidableEq κ] (m n : List (κ × ν)) (k : κ) :
    aGet (m ++ n) k =
      match aGet m k with
      | some w => some w
      | none => aGet n k := by
  induction m with
  | nil => simp [aGet]
  | cons a m ih =>
    obtain ⟨x, w⟩ := a
    rw [List.cons_append, aGet_cons, aGet_cons]
    by_cases h : x = k
    · simp [h]
    · simp [h, ih]

theorem aGet_aUpdate {κ ν : Type} [DecidableEq κ] (m : List (κ × ν))
    (j k : κ) (v : ν) :
    aGet (aUpdate m j v) k =
      if j = k then (aGet m k).map (fun _ => v) else aGet m k := by
  induction m with
  | nil => by_cases h : j = k <;> simp [aGet, aUpdate, h]
  | cons a m ih =>
    obtain ⟨x, w⟩ := a
    have hstep : aUpdate ((x, w) :: m) j v
        = (if x = j then (j, v) else (x, w)) :: aUpdate m j v := rfl
    rw [hstep]
    by_cases hxj : x = j
    · rw [if_pos hxj, aGet_cons, aGet_cons]
      by_cases hjk : j = k
      · rw [if_pos hjk, if_pos hjk, if_pos (hxj.trans hjk)]
        simp
      · rw [if_neg hjk, if_neg hjk, if_neg (fun h => hjk (hxj ▸ h)), ih,
          if_neg hjk]
    · rw [if_neg hxj, aGet_cons, aGet_cons]
      by_cases hxk : x = k
      · rw [if_pos hxk, if_pos hxk,
          if_neg (fun h : j = k => hxj (hxk.trans h.symm))]
      · rw [if_neg hxk, if_neg hxk, ih]

theorem aHas_iff {κ ν : Type} [DecidableEq κ] (m : List (κ × ν)) (k : κ) :
    aHas m k = true ↔ ∃ w, aGet m k = some w := by
  induction m with
  | nil => simp [aHas, aGet]
  | cons a m ih =>
    obtain ⟨x, w⟩ := a
    rw [aGet_cons]
    by_cases hxk : x = k
    · simp [aHas, List.any_cons, hxk]
    · simp [aHas, List.any_cons, hxk] at ih ⊢
      exact ih

theorem aGet_of_not_aHas {κ ν : Type} [DecidableEq κ] (m : List (κ × ν))
    (k : κ) (h : ¬ aHas m k = true) : aGet m k = none := by
  cases hg : aGet m k with
  | none => rfl
  | some w => exact absurd ((aHas_iff m k).mpr ⟨w, hg⟩) h

theorem aGet_aSet {κ ν : Type} [DecidableEq κ] (m : List (κ × ν))
    (j k : κ) (v : ν) :
    aGet (aSet m j v) k = if j = k then some v else aGet m k := by
  rw [aSet]
  by_cases hh : aHas m j
  · rw [if_pos hh, aGet_aUpdate]
    by_cases hjk : j = k
    · subst hjk
      obtain ⟨w, hw⟩ := (aHas_iff m j).mp hh
      simp [hw]
    · simp [hjk]
  · rw [if_neg hh, aGet_append]
    by_cases hjk : j = k
    · subst hjk
      rw [aGet_of_not_aHas m j hh]
      simp [aGet_cons]
    · rw [if_neg hjk]
      cases hg : aGet m k with
      | some w => simp
      | none => simp [aGet_cons, hjk, aGet]

/-! ## Lemmas about the assembler's page-tree pass -/

theorem setParents_preserves (pagesId : Nat) (l : List Nat) :
    ∀ (objs objs2 : ObjMap), setParents pagesId l objs = .ok objs2 →
      ∀ k, hasParentRef pagesId objs k → hasParentRef pagesId objs2 k := by
  induction l with
  | nil =>
    intro objs objs2 h k hp
    simp only [setParents] at h
    cases h
    exact hp
  | cons q rest ih =>
    intro objs objs2 h k hp
    simp only [setParents] at h
    cases hq : mapGet objs q with
    | none => simp only [hq] at h; cases h
    | some o =>
      cases o with
      | dict d =>
        simp only [hq] at h
        refine ih _ _ h k ?_
        obtain ⟨pd, hpd, hpar⟩ := hp
        by_cases hqk : q = k
        · subst hqk
          refine ⟨dictSet d "Parent" (.ref pagesId), ?_, ?_⟩
          · show aGet (aUpdate objs q _) q = _
            rw [aGet_aUpdate, if_pos rfl,
              show aGet objs q = some (PdfObject.dict d) from hq]
            rfl
          · show aGet (aSet d "Parent" (.ref pagesId)) "Parent" = _
            rw [aGet_aSet, if_pos rfl]
        · refine ⟨pd, ?_, hpar⟩
          show aGet (aUpdate objs q _) k = _
          rw [aGet_aUpdate, if_neg hqk]
          exact hpd
      | null => simp only [hq] at h; cases h
      | int n => simp only [hq] at h; cases h
      | name s => simp only [hq] at h; cases h
      | ref i => simp only [hq] at h; cases h
      | arr xs => simp only [hq] at h; cases h

theorem setParents_ok_hasParent (pagesId : Nat) (l : List Nat) :
    ∀ (objs objs2 : ObjMap), setParents pagesId l objs = .ok objs2 →
      ∀ k ∈ l, hasParentRef pagesId objs2 k := by
  induction l with
  | nil => intro objs objs2 h k hk; cases hk
  | cons q rest ih =>
    intro objs objs2 h k hk
    simp only [setParents] at h
    cases hq : mapGet objs q with
    | none => simp only [hq] at h; cases h
    | some o =>
      cases o with
      | dict d =>
        simp only [hq] at h
        rcases List.mem_cons.mp hk with rfl | hk
        · refine setParents_preserves pagesId rest _ _ h k ?_
          refine ⟨dictSet d "Parent" (.ref pagesId), ?_, ?_⟩
          · show aGet (aUpdate objs k _) k = _
            rw [aGet_aUpdate, if_pos rfl,
              show aGet objs k = some (PdfObject.dict d) from hq]
            rfl
          · show aGet (aSet d "Parent" (.ref pagesId)) "Parent" = _
            rw [aGet_aSet, if_pos rfl]
        · exact ih _ _ h k hk
      | null => simp only [hq] at h; cases h
      | int n => simp only [hq] at h; cases h
      | name s => simp only [hq] at h; cases h
      | ref i => simp only [hq] at h; cases h
      | arr xs => simp only [hq] at h; cases h

theorem badPage_aUpdate (objs : ObjMap) (q k : Nat)
    (d : List (String × PdfObject)) (v : PdfObject)
    (hq : mapGet objs q = some (.dict d)) (hb : badPage objs k) :
    badPage (aUpdate objs q v) k := by
  have hqk : q ≠ k := by
    intro hqk
    subst hqk
    rcases hb with hb | ⟨o, ho, hdo⟩
    · rw [hq] at hb; cases hb
    · rw [hq] at ho
      injection ho with ho
      rw [ho.symm] at hdo
      simp [isDict] at hdo
  rcases hb with hb | ⟨o, ho, hdo⟩
  · left
    show aGet (aUpdate objs q v) k = none
    rw [aGet_aUpdate, if_neg hqk]
    exact hb
  · right
    refine ⟨o, ?_, hdo⟩
    show aGet (aUpdate objs q v) k = some o
    rw [aGet_aUpdate, if_neg hqk]
    exact ho

theorem setParents_fails (pagesId : Nat) (l : List Nat) :
    ∀ objs : ObjMap, (∃ k ∈ l, badPage objs k) →
      ∃ e, setParents pagesId l objs = .error e := by
  induction l with
  | nil =>
    intro objs h
    obtain ⟨k, hk, _⟩ := h
    cases hk
  | cons q rest ih =>
    intro objs h
    obtain ⟨k, hk, hb⟩ := h
    simp only [setParents]
    cases hq : mapGet objs q with
    | none => exact ⟨_, rfl⟩
    | some o =>
      cases o with
      | dict d =>
        have hkr : k ∈ rest := by
          rcases List.mem_cons.mp hk with rfl | hkr
          · exfalso
            rcases hb with hb | ⟨o2, ho2, hdo2⟩
            · rw [hq] at hb; cases hb
            · rw [hq] at ho2
              injection ho2 with ho2
              rw [ho2.symm] at hdo2
              simp [isDict] at hdo2
          · exact hkr
        obtain ⟨e, he⟩ :=
          ih _ ⟨k, hkr, badPage_aUpdate objs q k d
            (.dict (dictSet d "Parent" (.ref pagesId))) hq hb⟩
        exact ⟨e, he⟩
      | null => exact ⟨_, rfl⟩
      | int n => exact ⟨_, rfl⟩
      | name s => exact ⟨_, rfl⟩
      | ref i => exact ⟨_, rfl⟩
      | arr xs => exact ⟨_, rfl⟩

/-! ## Claim C1 : the assembled document structure -/

/-- C1: on success of the page-tree assembly, every kept page object is a
dictionary whose `Parent` references the single new page-tree node at
`maxId + 1`; that node's `Kids` are the ordered references to exactly the
kept page ids with `Count` their number; the new catalog at `maxId + 2`
references the node; and the trailer is the fresh one-entry dictionary
referencing only the new catalog.  If some kept page id is absent from
the object table or not a dictionary, the assembly fails with an error
and the filesystem is unchanged (no output file written). -/
theorem merge_assembly_correct (fs : FS) (output : List String) (maxId : Nat)
    (objects : ObjMap) (pageIds : List Nat)
    (hids : ∀ pid ∈ pageIds, pid ≤ maxId) :
    (∀ d, buildTree maxId objects pageIds = .ok d →
      (∀ pid ∈ pageIds, hasParentRef (maxId + 1) d.objects pid)
      ∧ (∃ pd, mapGet d.objects (maxId + 1) = some (.dict pd)
          ∧ dictGet pd "Kids" = some (.arr (pageIds.map PdfObject.ref))
          ∧ dictGet pd "Count" = some (.int pageIds.length))
      ∧ (∃ cd, mapGet d.objects (maxId + 2) = some (.dict cd)
          ∧ dictGet cd "Pages" = some (.ref (maxId + 1)))
      ∧ d.trailer = [("Root", PdfObject.ref (maxId + 2))])
    ∧ ((∃ pid ∈ pageIds, badPage objects pid) →
        (∃ e, (assembleAndSave fs output maxId objects pageIds).2 = .error e)
        ∧ (assembleAndSave fs output maxId objects pageIds).1 = fs) := by
  constructor
  · intro d hd
    simp only [buildTree] at hd
    cases hsp : setParents (maxId + 1) pageIds objects with
    | error e => rw [hsp] at hd; cases hd
    | ok objs =>
      rw [hsp] at hd
      cases hd
      refine ⟨?_, ?_, ?_, rfl⟩
      · intro pid hpid
        obtain ⟨pd, hpd, hpar⟩ :=
          setParents_ok_hasParent (maxId + 1) pageIds objects objs hsp pid hpid
        refine ⟨pd, ?_, hpar⟩
        show aGet (aSet (aSet objs (maxId + 1) _) (maxId + 2) _) pid = _
        rw [aGet_aSet, if_neg (by have := hids pid hpid; omega),
          aGet_aSet, if_neg (by have := hids pid hpid; omega)]
        exact hpd
      · refine ⟨dictSet (dictSet (dictSet [] "Type" (PdfObject.name "Pages"))
            "Kids" (PdfObject.arr (pageIds.map PdfObject.ref)))
            "Count" (PdfObject.int pageIds.length), ?_, ?_, ?_⟩
        · show aGet (aSet (aSet objs (maxId + 1) _) (maxId + 2) _) (maxId + 1) = _
          rw [aGet_aSet, if_neg (by omega), aGet_aSet, if_pos rfl]
        · show aGet (aSet (aSet (aSet [] "Type" _) "Kids" _) "Count" _) "Kids" = _
          rw [aGet_aSet, if_neg (by decide), aGet_aSet, if_pos rfl]
        · show aGet (aSet (aSet (aSet [] "Type" _) "Kids" _) "Count" _) "Count" = _
          rw [aGet_aSet, if_pos rfl]
      · refine ⟨dictSet (dictSet [] "Type" (PdfObject.name "Catalog"))
            "Pages" (PdfObject.ref (maxId + 1)), ?_, ?_⟩
        · show aGet (aSet (aSet objs (maxId + 1) _) (maxId + 2) _) (maxId + 2) = _
          rw [aGet_aSet, if_pos rfl]
        · show aGet (aSet (aSet [] "Type" _) "Pages" _) "Pages" = _
          rw [aGet_aSet, if_pos rfl]
  · intro hbad
    obtain ⟨e, he⟩ := setParents_fails (maxId + 1) pageIds objects hbad
    have hb : buildTree maxId objects pageIds = .error e := by
      simp only [buildTree]
      rw [he]
    constructor
    · exact ⟨e, by simp only [assembleAndSave]; rw [hb]⟩
    · simp only [assembleAndSave]
      rw [hb]

/-- C1, applied at a concrete failing input: page id 2 is absent from the
object table, so the assembly errors and writes nothing. -/
theorem merge_assembly_correct_witness :
    (∃ e, (assembleAndSave ⟨[], []⟩ [String.mk ['o']] 3
        [(1, PdfObject.dict [])] [2]).2 = Except.error e)
    ∧ (assembleAndSave ⟨[], []⟩ [String.mk ['o']] 3
        [(1, PdfObject.dict [])] [2]).1 = ⟨[], []⟩ :=
  (merge_assembly_correct ⟨[], []⟩ [String.mk ['o']] 3
      [(1, PdfObject.dict [])] [2] (by intro pid h; simp at h; omega)).2
    ⟨2, by simp, Or.inl rfl⟩


/-! ## Claim C2 : the assembler's precondition checks -/

/-- C2 counterexample: `run_with_files` with an empty input file list
does not fail — it assembles a zero-page document and writes the output
file. -/
theorem run_with_files_empty_ok :
    run_with_files trivLib ⟨[["d"]], []⟩ [] ["d", "out.pdf"] none false
      = (⟨[["d"]], [["d", "out.pdf"]]⟩, Except.ok ()) := rfl

theorem foldl_addDir_present (l : List (List String)) :
    ∀ fs : FS, (∀ a ∈ l, a ∈ fs.dirs) → l.foldl addDir fs = fs := by
  induction l with
  | nil => intro fs _; rfl
  | cons a l ih =>
    intro fs h
    rw [List.foldl_cons]
    have ha : addDir fs a = fs := by
      rw [addDir, if_pos (List.elem_eq_true_of_mem (h a (List.mem_cons_self a l)))]
    rw [ha]
    exact ih fs (fun b hb => h b (List.mem_cons_of_mem a hb))

theorem createDirAll_present (fs : FS) (p : List String)
    (h : ∀ a ∈ ancestors p, a ∈ fs.dirs) : createDirAll fs p = fs :=
  foldl_addDir_present (ancestors p) fs h

/-- C2 amended: the directory entry point `run` fails with an error when
the scan finds no PDF files; and when the output path already exists and
overwrite is not forced, both `run` (whose initial create_dir_all is a
no-op because the existing output's parent directories exist) and
`run_with_files` fail with an error leaving the filesystem unchanged —
no file or directory is created or modified.  (`run_with_files` itself
performs no empty-list check; see the counterexample.) -/
theorem run_precondition_checks (lib : PdfLib) (g : GlobLib) (fs : FS)
    (entries : List (Except String Entry)) (input_dir output : List String)
    (spec : Option String) (includes excludes : List String)
    (files : List (List String)) :
    ((collect_pdfs_cfg g entries (runCfg input_dir includes excludes output)
        = .ok []) →
      ∃ e, (run lib g fs entries input_dir output spec includes excludes
        false).2 = .error e)
    ∧ (pathExists fs output = true →
      (∀ par, parentDir output = some par → ∀ a ∈ ancestors par, a ∈ fs.dirs) →
      ((run lib g fs entries input_dir output spec includes excludes false).1
          = fs
        ∧ ∃ e, (run lib g fs entries input_dir output spec includes excludes
            false).2 = .error e)
      ∧ run_with_files lib fs files output spec false
          = (fs, .error "输出文件已存在")) := by
  constructor
  · intro hempty
    simp only [run, hempty]
    exact ⟨_, rfl⟩
  · intro hex hpar
    have hfs1 : (match parentDir output with
        | some par => createDirAll fs par
        | none => fs) = fs := by
      cases hp : parentDir output with
      | none => rfl
      | some par => exact createDirAll_present fs par (hpar par hp)
    constructor
    · simp only [run, hfs1]
      cases hc : collect_pdfs_cfg g entries
          (runCfg input_dir includes excludes output) with
      | error e => exact ⟨by trivial, _, by rfl⟩
      | ok pdfFiles =>
        by_cases hnil : pdfFiles = []
        · simp only [if_pos hnil]
          exact ⟨by trivial, _, by rfl⟩
        · simp only [if_neg hnil]
          simp [merge_selected_pages, hex]
    · simp [run_with_files, merge_selected_pages, hex]

/-- C2 amended, applied at a concrete state: the output exists, overwrite
is not forced, and the run fails leaving the filesystem as it was. -/
theorem run_precondition_checks_witness :
    ((run trivLib trivGlob ⟨[["d"]], [["d", "o.pdf"]]⟩ [] ["d"] ["d", "o.pdf"]
        none [] [] false).1 = ⟨[["d"]], [["d", "o.pdf"]]⟩
      ∧ ∃ e, (run trivLib trivGlob ⟨[["d"]], [["d", "o.pdf"]]⟩ [] ["d"]
          ["d", "o.pdf"] none [] [] false).2 = .error e)
    ∧ run_with_files trivLib ⟨[["d"]], [["d", "o.pdf"]]⟩ [["d", "a.pdf"]]
        ["d", "o.pdf"] none false
      = (⟨[["d"]], [["d", "o.pdf"]]⟩, .error "输出文件已存在") :=
  (run_precondition_checks trivLib trivGlob ⟨[["d"]], [["d", "o.pdf"]]⟩ []
      ["d"] ["d", "o.pdf"] none [] [] [["d", "a.pdf"]]).2
    (by decide)
    (by intro par hp a ha; simp [parentDir] at hp; simp [← hp, ancestors] at ha; simp [ha])


/-! ## Claim C4 : the splitter's per-group renumbering -/

theorem map_add_fst_enumFrom {α : Type} (start : Nat) (l : List α) :
    ∀ i : Nat,
      (l.enumFrom i).map (fun p => start + p.1)
        = List.range' (start + i) l.length := by
  induction l with
  | nil => intro i; rfl
  | cons a l ih =>
    intro i
    simp only [List.enumFrom, List.map_cons, List.length_cons]
    rw [ih (i + 1), show start + (i + 1) = start + i + 1 from by omega]
    rfl

theorem map_fst_enum_offset {α γ : Type} (start : Nat) (g : Nat × α → γ)
    (l : List α) :
    (l.enum.map (fun p => (start + p.1, g p))).map Prod.fst
      = List.range' start l.length := by
  rw [List.map_map,
    show (Prod.fst ∘ fun p : Nat × α => (start + p.1, g p))
      = fun p : Nat × α => start + p.1 from rfl,
    List.enum, map_add_fst_enumFrom start l 0, Nat.add_zero]

theorem renumberWith_keys (startId : Nat) (d : Doc) :
    (renumberWith startId d).objects.map Prod.fst
      = List.range' startId d.objects.length := by
  simp only [renumberWith]
  rw [map_fst_enum_offset, List.length_insertionSort]

/-- C4 counterexample: the splitter's fresh per-group copy is renumbered
with offset `out_doc.max_id + 1 = 1`, so its identifiers start from one,
not zero: a one-object source renumbers to key list [1], which is not
`List.range 1 = [0]`. -/
theorem partCopy_not_from_zero :
    (partCopy ⟨7, [(7, PdfObject.dict [])], []⟩).objects.map Prod.fst = [1]
    ∧ (partCopy ⟨7, [(7, PdfObject.dict [])], []⟩).objects.map Prod.fst
        ≠ List.range
          ((⟨7, [(7, PdfObject.dict [])], []⟩ : Doc).objects.length) := by
  constructor
  · rfl
  · decide

/-- C4 amended: for every source document, the splitter's fresh per-group
copy is renumbered to consecutive object identifiers starting from one
(the fresh output document's `max_id + 1`) before its objects are folded
into the group's output document; in particular identifier zero never
occurs. -/
theorem partCopy_renumbered_from_one (src : Doc) :
    (partCopy src).objects.map Prod.fst = List.range' 1 src.objects.length
    ∧ 0 ∉ (partCopy src).objects.map Prod.fst := by
  have hk : (partCopy src).objects.map Prod.fst
      = List.range' 1 src.objects.length := renumberWith_keys 1 src
  refine ⟨hk, ?_⟩
  rw [hk]
  intro h
  rw [List.mem_range'_1] at h
  omega

/-! ## Claim C9 : silent skip of inverted split groups -/

/-- C9: a group whose clamped end (open end resolving to the page total,
then capped at the total) falls below its clamped start (raised to at
least 1) is silently skipped: the split loop produces no output for it,
raises no error, and continues with the remaining groups. -/
theorem split_group_skip (lib : PdfLib) (input outDir : List String)
    (pattern base : String) (force : Bool) (total : Nat) (fs : FS)
    (idx : Nat) (g : PageRange) (rest : List PageRange)
    (h : min (g.«end».getD total) total < max g.start 1) :
    splitLoop lib input outDir pattern base force total fs idx (g :: rest)
      = splitLoop lib input outDir pattern base force total fs (idx + 1)
          rest := by
  simp only [splitLoop]
  rw [if_pos h]

/-- C9, applied at a concrete inverted group (3-2 against 5 pages). -/
theorem split_group_skip_witness :
    splitLoop trivLib ["in.pdf"] ["out"] "p" "b" false 5 ⟨[], []⟩ 0
        [⟨3, some 2⟩]
      = splitLoop trivLib ["in.pdf"] ["out"] "p" "b" false 5 ⟨[], []⟩ 1 [] :=
  split_group_skip trivLib ["in.pdf"] ["out"] "p" "b" false 5 ⟨[], []⟩ 0
    ⟨3, some 2⟩ [] (by decide)

/-! ## Claim C10 : the output path never merges into itself -/

/-- C10: the merge entry point places the output path among the
scanner's extra excluded paths, so a successful scan never lists the
output file among the files to be merged — even when it lies inside the
input directory with the target extension. -/
theorem run_scan_excludes_output (g : GlobLib)
    (entries : List (Except String Entry)) (input_dir output : List String)
    (includes excludes : List String) (l : List (List String))
    (h : collect_pdfs_cfg g entries (runCfg input_dir includes excludes output)
      = .ok l) :
    output ∉ l := by
  intro hmem
  simp only [collect_pdfs_cfg] at h
  cases h1 : build_globset g (runCfg input_dir includes excludes output).includes with
  | error e => rw [h1] at h; cases h
  | ok inc =>
    rw [h1] at h
    cases h2 : build_globset g (runCfg input_dir includes excludes output).excludes with
    | error e => rw [h2] at h; cases h
    | ok exc =>
      rw [h2] at h
      injection h with h
      rw [← h] at hmem
      rw [(List.perm_insertionSort (fun a b => pathLeB a b = true) _).mem_iff]
        at hmem
      obtain ⟨ent, hent, hpath⟩ := List.mem_map.mp hmem
      obtain ⟨_, hkeep⟩ := List.mem_filter.mp hent
      simp only [entryKeep, runCfg, Bool.and_eq_true, Bool.not_eq_true'] at hkeep
      have hne := hkeep.1.2
      simp only [List.any_cons, List.any_nil, Bool.or_false,
        Bool.not_eq_true'] at hne
      rw [hpath] at hne
      simp at hne

/-- C10, applied at a concrete scan where the output file lies in the
input directory with the pdf extension: it is dropped from the scan. -/
theorem run_scan_excludes_output_witness :
    collect_pdfs_cfg trivGlob
        [.ok ⟨["r", "a.pdf"], true⟩, .ok ⟨["r", "o.pdf"], true⟩]
        (runCfg ["r"] [] [] ["r", "o.pdf"])
      = .ok [["r", "a.pdf"]]
    ∧ (["r", "o.pdf"] : List String) ∉ [[("r" : String), "a.pdf"]] :=
  ⟨rfl, run_scan_excludes_output trivGlob
    [.ok ⟨["r", "a.pdf"], true⟩, .ok ⟨["r", "o.pdf"], true⟩]
    ["r"] ["r", "o.pdf"] [] [] [["r", "a.pdf"]] rfl⟩

/-! ## Claim C8 : the streaming scan always signals completion -/

theorem workerLoop_mem_error (inc exc : List (List String → Bool))
    (cfg : ScanConfig) (cancel : Nat → Bool) (hcan : ∀ i, cancel i = false)
    (msg : String) (entries : List (Except String Entry)) :
    ∀ i : Nat, Except.error msg ∈ entries →
      ScanEvent.error msg ∈ workerLoop inc exc cfg cancel i entries := by
  induction entries with
  | nil => intro i h; cases h
  | cons ent rest ih =>
    intro i h
    simp only [workerLoop, hcan i, Bool.false_eq_true, if_false]
    rcases List.mem_cons.mp h with rfl | hrest
    · exact List.mem_cons_self _ _
    · cases ent with
      | ok e => exact List.mem_append_right _ (ih (i + 1) hrest)
      | error m2 => exact List.mem_cons_of_mem _ (ih (i + 1) hrest)

theorem workerLoop_mem_found (inc exc : List (List String → Bool))
    (cfg : ScanConfig) (cancel : Nat → Bool) (hcan : ∀ i, cancel i = false)
    (e0 : Entry) (entries : List (Except String Entry)) :
    ∀ i : Nat, Except.ok e0 ∈ entries → entryKeep inc exc cfg e0 = true →
      ScanEvent.found e0.path ∈ workerLoop inc exc cfg cancel i entries := by
  induction entries with
  | nil => intro i h; cases h
  | cons ent rest ih =>
    intro i h hkeep
    simp only [workerLoop, hcan i, Bool.false_eq_true, if_false]
    rcases List.mem_cons.mp h with rfl | hrest
    · show ScanEvent.found e0.path ∈
        (if entryKeep inc exc cfg e0 = true then [ScanEvent.found e0.path]
          else []) ++ workerLoop inc exc cfg cancel (i + 1) rest
      rw [hkeep, if_pos rfl]
      exact List.mem_append_left _ (List.mem_singleton.mpr rfl)
    · cases ent with
      | ok e => exact List.mem_append_right _ (ih (i + 1) hrest hkeep)
      | error m2 => exact List.mem_cons_of_mem _ (ih (i + 1) hrest hkeep)

/-- C8: in every run of the streaming scan worker — a completed walk, a
cancelled walk, or a glob-set build failure — the last event sent over
the channel is the terminal done event; and per-entry walk errors are
non-fatal: with cancellation never requested, every unreadable entry
contributes an error event and every matching readable entry still
contributes its found event, so errors never stop the walk. -/
theorem scan_stream_always_done (g : GlobLib) (cfg : ScanConfig)
    (entries : List (Except String Entry)) (cancel : Nat → Bool) :
    (scan_stream_events g cfg entries cancel).getLast? = some .done
    ∧ (∀ inc exc, build_globset g cfg.includes = .ok inc →
        build_globset g cfg.excludes = .ok exc → (∀ i, cancel i = false) →
        (∀ msg, Except.error msg ∈ entries →
          ScanEvent.error msg ∈ scan_stream_events g cfg entries cancel)
        ∧ (∀ ent : Entry, Except.ok ent ∈ entries →
            entryKeep inc exc cfg ent = true →
            ScanEvent.found ent.path ∈ scan_stream_events g cfg entries cancel)) := by
  constructor
  · simp only [scan_stream_events]
    cases h1 : build_globset g cfg.includes with
    | error e => rfl
    | ok inc =>
      cases h2 : build_globset g cfg.excludes with
      | error e => rfl
      | ok exc => exact List.getLast?_concat _
  · intro inc exc h1 h2 hcan
    simp only [scan_stream_events, h1, h2]
    constructor
    · intro msg hm
      exact List.mem_append_left _
        (workerLoop_mem_error inc exc cfg cancel hcan msg entries 0 hm)
    · intro ent hm hkeep
      exact List.mem_append_left _
        (workerLoop_mem_found inc exc cfg cancel hcan ent entries 0 hm hkeep)


/-! ## Order lemmas for the PathBuf comparison -/

theorem charLtB_asymm (a b : Char) (h : charLtB a b = true) :
    charLtB b a = false := by
  simp only [charLtB, decide_eq_true_eq] at h
  simp only [charLtB, decide_eq_false_iff_not]
  exact lt_asymm h

theorem charLtB_conn (a b : Char) (h1 : charLtB a b = false)
    (h2 : charLtB b a = false) : a = b := by
  simp only [charLtB, decide_eq_false_iff_not] at h1 h2
  exact le_antisymm (not_lt.mp h2) (not_lt.mp h1)

theorem charLtB_trans (a b c : Char) (h1 : charLtB a b = true)
    (h2 : charLtB b c = true) : charLtB a c = true := by
  simp only [charLtB, decide_eq_true_eq] at h1 h2 ⊢
  exact lt_trans h1 h2

theorem lexLtB_asymm {α : Type} (lt : α → α → Bool)
    (ha : ∀ a b, lt a b = true → lt b a = false) :
    ∀ p q, lexLtB lt p q = true → lexLtB lt q p = false := by
  intro p
  induction p with
  | nil =>
    intro q h
    cases q with
    | nil => exact absurd h (by simp [lexLtB])
    | cons b bs => rfl
  | cons a as ih =>
    intro q h
    cases q with
    | nil => exact absurd h (by simp [lexLtB])
    | cons b bs =>
      simp only [lexLtB] at h ⊢
      cases hab : lt a b with
      | true => simp [hab, ha a b hab]
      | false =>
        cases hba : lt b a with
        | true => simp [hab, hba] at h
        | false =>
          simp only [hab, hba, Bool.false_eq_true, if_false] at h
          simp [hab, hba, ih bs h]

theorem lexLtB_conn {α : Type} (lt : α → α → Bool)
    (hc : ∀ a b, lt a b = false → lt b a = false → a = b) :
    ∀ p q, lexLtB lt p q = false → lexLtB lt q p = false → p = q := by
  intro p
  induction p with
  | nil =>
    intro q h1 h2
    cases q with
    | nil => rfl
    | cons b bs => exact absurd h1 (by simp [lexLtB])
  | cons a as ih =>
    intro q h1 h2
    cases q with
    | nil => exact absurd h2 (by simp [lexLtB])
    | cons b bs =>
      simp only [lexLtB] at h1 h2
      cases hab : lt a b with
      | true => simp [hab] at h1
      | false =>
        cases hba : lt b a with
        | true => simp [hba] at h2
        | false =>
          simp only [hab, hba, Bool.false_eq_true, if_false] at h1 h2
          rw [hc a b hab hba, ih bs h1 h2]

theorem lexLtB_trans {α : Type} (lt : α → α → Bool)
    (htr : ∀ a b c, lt a b = true → lt b c = true → lt a c = true)
    (hc : ∀ a b, lt a b = false → lt b a = false → a = b) :
    ∀ p q r, lexLtB lt p q = true → lexLtB lt q r = true →
      lexLtB lt p r = true := by
  intro p
  induction p with
  | nil =>
    intro q r h1 h2
    cases q with
    | nil => exact absurd h1 (by simp [lexLtB])
    | cons b bs =>
      cases r with
      | nil => exact absurd h2 (by simp [lexLtB])
      | cons c cs => simp [lexLtB]
  | cons a as ih =>
    intro q r h1 h2
    cases q with
    | nil => exact absurd h1 (by simp [lexLtB])
    | cons b bs =>
      cases r with
      | nil => exact absurd h2 (by simp [lexLtB])
      | cons c cs =>
        simp only [lexLtB] at h1 h2 ⊢
        cases hab : lt a b with
        | true =>
          cases hbc : lt b c with
          | true => simp [htr a b c hab hbc]
          | false =>
            cases hcb : lt c b with
            | true => simp [hbc, hcb] at h2
            | false =>
              have hbc2 := hc b c hbc hcb
              subst hbc2
              simp [hab]
        | false =>
          cases hba : lt b a with
          | true => simp [hab, hba] at h1
          | false =>
            have hab2 := hc a b hab hba
            subst hab2
            simp only [hab, hba, Bool.false_eq_true, if_false] at h1
            cases hac : lt a c with
            | true => simp [hac]
            | false =>
              cases hca : lt c a with
              | true => simp [hac, hca] at h2
              | false =>
                simp only [hac, hca, Bool.false_eq_true, if_false] at h2 ⊢
                exact ih bs cs h1 h2

theorem strLtB_asymm (a b : String) (h : strLtB a b = true) :
    strLtB b a = false :=
  lexLtB_asymm charLtB charLtB_asymm a.data b.data h

theorem strLtB_conn (a b : String) (h1 : strLtB a b = false)
    (h2 : strLtB b a = false) : a = b := by
  have h3 := lexLtB_conn charLtB charLtB_conn a.data b.data h1 h2
  cases a
  cases b
  exact congrArg String.mk h3

theorem strLtB_trans (a b c : String) (h1 : strLtB a b = true)
    (h2 : strLtB b c = true) : strLtB a c = true :=
  lexLtB_trans charLtB charLtB_trans charLtB_conn a.data b.data c.data h1 h2

theorem pathLtB_asymm (p q : List String) (h : pathLtB p q = true) :
    pathLtB q p = false :=
  lexLtB_asymm strLtB strLtB_asymm p q h

theorem pathLtB_conn (p q : List String) (h1 : pathLtB p q = false)
    (h2 : pathLtB q p = false) : p = q :=
  lexLtB_conn strLtB strLtB_conn p q h1 h2

theorem pathLtB_trans (p q r : List String) (h1 : pathLtB p q = true)
    (h2 : pathLtB q r = true) : pathLtB p r = true :=
  lexLtB_trans strLtB strLtB_trans strLtB_conn p q r h1 h2

theorem pathLeB_total (p q : List String) :
    pathLeB p q = true ∨ pathLeB q p = true := by
  simp only [pathLeB, Bool.not_eq_true']
  cases h : pathLtB q p with
  | false => exact Or.inl rfl
  | true => exact Or.inr (pathLtB_asymm q p h)

theorem pathLeB_trans (p q r : List String) (h1 : pathLeB p q = true)
    (h2 : pathLeB q r = true) : pathLeB p r = true := by
  simp only [pathLeB, Bool.not_eq_true'] at h1 h2 ⊢
  cases hrp : pathLtB r p with
  | false => rfl
  | true =>
    exfalso
    cases hqr : pathLtB q r with
    | true =>
      have hqp := pathLtB_trans q r p hqr hrp
      rw [h1] at hqp
      cases hqp
    | false =>
      have hq := pathLtB_conn q r hqr h2
      rw [hq, hrp] at h1
      cases h1

/-! ## Lemmas about glob-set building -/

theorem buildGlobs_forall2 (g : GlobLib) :
    ∀ (pats : List String) (ms : List (List String → Bool)),
      buildGlobs g pats = .ok ms →
      List.Forall₂ (fun pat m => g.compile pat = some m) pats ms := by
  intro pats
  induction pats with
  | nil =>
    intro ms h
    simp only [buildGlobs] at h
    cases h
    exact List.Forall₂.nil
  | cons p ps ih =>
    intro ms h
    simp only [buildGlobs] at h
    cases hc : g.compile p with
    | none => simp only [hc] at h; cases h
    | some m =>
      simp only [hc] at h
      cases hr : buildGlobs g ps with
      | error e => simp only [hr] at h; cases h
      | ok ms2 =>
        simp only [hr] at h
        cases h
        exact List.Forall₂.cons hc (ih ms2 hr)

theorem buildGlobs_error_iff (g : GlobLib) :
    ∀ pats : List String,
      (∃ e, buildGlobs g pats = .error e) ↔
        ∃ pat ∈ pats, g.compile pat = none := by
  intro pats
  induction pats with
  | nil => simp [buildGlobs]
  | cons p ps ih =>
    simp only [buildGlobs]
    cases hc : g.compile p with
    | none =>
      constructor
      · intro _
        exact ⟨p, List.mem_cons_self _ _, hc⟩
      · intro _
        exact ⟨_, rfl⟩
    | some m =>
      cases hr : buildGlobs g ps with
      | error e =>
        constructor
        · intro _
          obtain ⟨pat, hmem, hn⟩ := ih.mp ⟨e, hr⟩
          exact ⟨pat, List.mem_cons_of_mem _ hmem, hn⟩
        · intro _
          exact ⟨e, rfl⟩
      | ok ms =>
        constructor
        · rintro ⟨e2, he2⟩
          cases he2
        · rintro ⟨pat, hmem, hn⟩
          rcases List.mem_cons.mp hmem with rfl | hmem2
          · rw [hn] at hc
            cases hc
          · obtain ⟨e2, he2⟩ := ih.mpr ⟨pat, hmem2, hn⟩
            rw [he2] at hr
            cases hr

theorem build_globset_error_iff (g : GlobLib) (pats : List String) :
    (∃ e, build_globset g pats = .error e) ↔
      ∃ pat ∈ pats, g.compile pat = none := by
  rw [build_globset]
  by_cases hp : pats = []
  · subst hp
    simp
  · rw [if_neg hp]
    exact buildGlobs_error_iff g pats

theorem build_globset_ok_forall2 (g : GlobLib) (pats : List String)
    (ms : List (List String → Bool)) (h : build_globset g pats = .ok ms) :
    List.Forall₂ (fun pat m => g.compile pat = some m) pats ms := by
  rw [build_globset] at h
  by_cases hp : pats = []
  · subst hp
    rw [if_pos rfl] at h
    cases h
    exact List.Forall₂.nil
  · rw [if_neg hp] at h
    exact buildGlobs_forall2 g pats ms h

theorem forall2_isEmpty_iff (g : GlobLib) {pats : List String}
    {ms : List (List String → Bool)}
    (h : List.Forall₂ (fun pat m => g.compile pat = some m) pats ms) :
    ms.isEmpty = true ↔ pats = [] := by
  cases h with
  | nil => simp
  | cons hR hrest => simp

theorem forall2_any_iff (g : GlobLib) {pats : List String}
    {ms : List (List String → Bool)}
    (h : List.Forall₂ (fun pat m => g.compile pat = some m) pats ms)
    (rel : List String) :
    ms.any (fun m => m rel) = true ↔
      ∃ pat ∈ pats, ∃ m, g.compile pat = some m ∧ m rel = true := by
  induction h with
  | nil => simp
  | @cons pat m pats2 ms2 hR hrest ih =>
    simp only [List.any_cons, Bool.or_eq_true, ih]
    constructor
    · rintro (hm | ⟨pat2, hmem, m2, hc2, hm2⟩)
      · exact ⟨pat, List.mem_cons_self _ _, m, hR, hm⟩
      · exact ⟨pat2, List.mem_cons_of_mem _ hmem, m2, hc2, hm2⟩
    · rintro ⟨pat2, hmem, m2, hc2, hm2⟩
      rcases List.mem_cons.mp hmem with rfl | hmem2
      · rw [hR] at hc2
        injection hc2 with hc2
        rw [← hc2] at hm2
        exact Or.inl hm2
      · exact Or.inr ⟨pat2, hmem2, m2, hc2, hm2⟩

theorem forall2_any_false_iff (g : GlobLib) {pats : List String}
    {ms : List (List String → Bool)}
    (h : List.Forall₂ (fun pat m => g.compile pat = some m) pats ms)
    (rel : List String) :
    ms.any (fun m => m rel) = false ↔
      ∀ pat ∈ pats, ∀ m, g.compile pat = some m → m rel = false := by
  constructor
  · intro hfalse pat hmem m0 hc
    cases hm0 : m0 rel with
    | false => rfl
    | true =>
      have hh := (forall2_any_iff g h rel).mpr ⟨pat, hmem, m0, hc, hm0⟩
      rw [hfalse] at hh
      cases hh
  · intro hall
    cases hany : ms.any (fun m => m rel) with
    | false => rfl
    | true =>
      obtain ⟨pat, hmem, m0, hc, hm0⟩ := (forall2_any_iff g h rel).mp hany
      rw [hall pat hmem m0 hc] at hm0
      cases hm0

theorem mem_filterMap_toOption (entries : List (Except String Entry))
    (ent : Entry) :
    ent ∈ entries.filterMap (fun r => r.toOption) ↔
      Except.ok ent ∈ entries := by
  rw [List.mem_filterMap]
  constructor
  · rintro ⟨r, hr, hto⟩
    cases r with
    | ok a =>
      simp only [Except.toOption] at hto
      injection hto with hto
      rw [← hto]
      exact hr
    | error e => simp [Except.toOption] at hto
  · intro h
    exact ⟨.ok ent, h, rfl⟩

theorem not_any_eq_path (p : List String) (l : List (List String)) :
    (!(l.any (fun q => p = q))) = true ↔ p ∉ l := by
  constructor
  · intro h hm
    rw [Bool.not_eq_true'] at h
    have ha : l.any (fun q => p = q) = true :=
      List.any_eq_true.mpr ⟨p, hm, by simp⟩
    rw [h] at ha
    cases ha
  · intro h
    rw [Bool.not_eq_true']
    cases ha : l.any (fun q => p = q) with
    | false => rfl
    | true =>
      obtain ⟨x, hx, he⟩ := List.any_eq_true.mp ha
      have hpx : p = x := of_decide_eq_true he
      exact absurd (show p ∈ l from by rw [hpx]; exact hx) h

theorem entryKeep_iff_specMatches (g : GlobLib) (cfg : ScanConfig)
    (inc exc : List (List String → Bool))
    (hinc : build_globset g cfg.includes = .ok inc)
    (hexc : build_globset g cfg.excludes = .ok exc) (ent : Entry) :
    entryKeep inc exc cfg ent = true ↔ specMatches g cfg ent := by
  have hfi := build_globset_ok_forall2 g cfg.includes inc hinc
  have hfe := build_globset_ok_forall2 g cfg.excludes exc hexc
  simp only [entryKeep, specMatches, Bool.and_eq_true]
  constructor
  · rintro ⟨⟨⟨hfile, hext⟩, hextra⟩, hincok, hexcok⟩
    refine ⟨hfile, ?_, (not_any_eq_path ent.path _).mp hextra, ?_, ?_⟩
    · cases hpe : pathExt ent.path with
      | none => rw [hpe] at hext; cases hext
      | some ext2 =>
        rw [hpe] at hext
        exact ⟨ext2, rfl, hext⟩
    · by_cases hie : inc.isEmpty = true
      · exact Or.inl ((forall2_isEmpty_iff g hfi).mp hie)
      · rw [if_neg hie] at hincok
        exact Or.inr ((forall2_any_iff g hfi _).mp hincok)
    · by_cases hee : exc.isEmpty = true
      · intro pat hmem
        rw [(forall2_isEmpty_iff g hfe).mp hee] at hmem
        cases hmem
      · rw [if_neg hee, Bool.not_eq_true'] at hexcok
        exact (forall2_any_false_iff g hfe _).mp hexcok
  · rintro ⟨hfile, ⟨ext2, hpe, hext⟩, hextra, hincp, hexcp⟩
    refine ⟨⟨⟨hfile, ?_⟩, (not_any_eq_path ent.path _).mpr hextra⟩, ?_, ?_⟩
    · rw [hpe]
      exact hext
    · by_cases hie : inc.isEmpty = true
      · rw [if_pos hie]
      · rw [if_neg hie]
        rcases hincp with hnil | hex
        · exact absurd ((forall2_isEmpty_iff g hfi).mpr hnil) hie
        · exact (forall2_any_iff g hfi _).mpr hex
    · rw [Bool.not_eq_true']
      by_cases hee : exc.isEmpty = true
      · rw [if_pos hee]
      · rw [if_neg hee]
        exact (forall2_any_false_iff g hfe _).mpr hexcp

/-! ## Claim C7 : the blocking collect -/

/-- C7 amended: the blocking collect fails exactly when some include or
exclude pattern is malformed; on success the result lists exactly the
matching entries — files whose extension case-insensitively equals pdf,
not exactly an extra excluded path, whose root-relative path passes the
include set (empty set matches all) and misses the exclude set (empty
set excludes nothing; exclusion wins) — sorted by `PathBuf` order, the
lexicographic order on path components (which is not full-path-string
order; see the counterexample). -/
theorem collect_pdfs_cfg_correct (g : GlobLib)
    (entries : List (Except String Entry)) (cfg : ScanConfig) :
    ((∃ e, collect_pdfs_cfg g entries cfg = .error e) ↔
      ∃ pat ∈ cfg.includes ++ cfg.excludes, g.compile pat = none)
    ∧ (∀ l, collect_pdfs_cfg g entries cfg = .ok l →
        List.Sorted (fun a b => pathLeB a b = true) l
        ∧ (∀ p, p ∈ l ↔ ∃ ent : Entry, Except.ok ent ∈ entries
            ∧ ent.path = p ∧ specMatches g cfg ent)) := by
  constructor
  · constructor
    · rintro ⟨e, he⟩
      simp only [collect_pdfs_cfg] at he
      cases h1 : build_globset g cfg.includes with
      | error e1 =>
        obtain ⟨pat, hm, hn⟩ :=
          (build_globset_error_iff g cfg.includes).mp ⟨e1, h1⟩
        exact ⟨pat, List.mem_append_left _ hm, hn⟩
      | ok inc =>
        rw [h1] at he
        cases h2 : build_globset g cfg.excludes with
        | error e2 =>
          obtain ⟨pat, hm, hn⟩ :=
            (build_globset_error_iff g cfg.excludes).mp ⟨e2, h2⟩
          exact ⟨pat, List.mem_append_right _ hm, hn⟩
        | ok exc =>
          rw [h2] at he
          cases he
    · rintro ⟨pat, hm, hn⟩
      rcases List.mem_append.mp hm with hmi | hme
      · obtain ⟨e1, he1⟩ :=
          (build_globset_error_iff g cfg.includes).mpr ⟨pat, hmi, hn⟩
        exact ⟨e1, by simp only [collect_pdfs_cfg]; rw [he1]⟩
      · cases h1 : build_globset g cfg.includes with
        | error e1 => exact ⟨e1, by simp only [collect_pdfs_cfg]; rw [h1]⟩
        | ok inc =>
          obtain ⟨e2, he2⟩ :=
            (build_globset_error_iff g cfg.excludes).mpr ⟨pat, hme, hn⟩
          exact ⟨e2, by simp only [collect_pdfs_cfg]; rw [h1, he2]⟩
  · intro l hl
    simp only [collect_pdfs_cfg] at hl
    cases h1 : build_globset g cfg.includes with
    | error e => rw [h1] at hl; cases hl
    | ok inc =>
      rw [h1] at hl
      cases h2 : build_globset g cfg.excludes with
      | error e => rw [h2] at hl; cases hl
      | ok exc =>
        rw [h2] at hl
        injection hl with hl
        subst hl
        constructor
        · haveI : IsTotal (List String) (fun a b => pathLeB a b = true) :=
            ⟨pathLeB_total⟩
          haveI : IsTrans (List String) (fun a b => pathLeB a b = true) :=
            ⟨fun a b c => pathLeB_trans a b c⟩
          exact List.sorted_insertionSort _ _
        · intro p
          rw [(List.perm_insertionSort
            (fun a b => pathLeB a b = true) _).mem_iff, List.mem_map]
          constructor
          · rintro ⟨ent, hent, rfl⟩
            obtain ⟨hmem, hkeep⟩ := List.mem_filter.mp hent
            exact ⟨ent, (mem_filterMap_toOption entries ent).mp hmem, rfl,
              (entryKeep_iff_specMatches g cfg inc exc h1 h2 ent).mp hkeep⟩
          · rintro ⟨ent, hentm, rfl, hspec⟩
            exact ⟨ent, List.mem_filter.mpr
              ⟨(mem_filterMap_toOption entries ent).mpr hentm,
                (entryKeep_iff_specMatches g cfg inc exc h1 h2 ent).mpr hspec⟩,
              rfl⟩

/-- C7 counterexample: scanning files dir-2/a.pdf and dir/b.pdf returns
dir/b.pdf first (`PathBuf` component order puts dir before dir-2), yet
the full path string of dir-2/a.pdf is strictly smaller (the hyphen sorts
below the separator), so the result is not sorted by full path string. -/
theorem collect_not_sorted_by_string :
    collect_pdfs_cfg trivGlob
        [.ok ⟨["r", "dir-2", "a.pdf"], true⟩, .ok ⟨["r", "dir", "b.pdf"], true⟩]
        ⟨["r"], [], [], [], none, false⟩
      = .ok [["r", "dir", "b.pdf"], ["r", "dir-2", "a.pdf"]]
    ∧ strLtB (pathStr ["r", "dir-2", "a.pdf"]) (pathStr ["r", "dir", "b.pdf"])
        = true :=
  ⟨rfl, rfl⟩

end PdfOps
